import Mathlib

/-!
Verification of the gocal expression evaluator (package math of
orayew2002/gocal) against its natural-language specification.

The Go source is embedded shallowly:

* Go strings are modelled byte-for-byte as `List Char` / `String`; every
  input exercised below is ASCII, where Go's byte-wise scanning and the
  character-wise model coincide.
* Go `float64` values are modelled as exact rationals (`ℚ`).  Every
  arithmetic step verified by a claim below (integer literals, `+`, `-`,
  `*`, exact `/`, integer exponents) is exact in binary64, so the
  rational model agrees with the Go float semantics on those inputs.
  Transcendental functions (`sin`, `ln`, ...) and non-integer exponents
  are outside the rational model and are never evaluated by any claim.
* Go `int64` arithmetic is modelled on `ℤ` with explicit two's-complement
  wrapping (`wrap64`) wherever the Go code can overflow.
* Go's `error` results become an explicit `Except Err` with one
  constructor per distinct error site of the source.
-/

deriving instance DecidableEq for Except

namespace Gocal

/-- Error taxonomy: one constructor per distinct error produced by
`math.go` / the money evaluator, carrying the same context the Go
`fmt.Errorf` message carries. -/
inductive Err where
  /-- "invalid number near %q" (lexer, second decimal point) -/
  | invalidNumber (near : String)
  /-- "invalid exponent in number near %q" (lexer, exponent with no digits) -/
  | invalidExponent (near : String)
  /-- "unexpected character: %q" (lexer) -/
  | unexpectedChar (c : Char)
  /-- artifact of the fuel-based recursion of the lexer model; the Go loop
  consumes at least one byte per iteration, so the fuel `length + 1`
  supplied by `tokenize` never runs out and this is unreachable. -/
  | lexOutOfFuel
  /-- "function %q must be called with parentheses" (parser) -/
  | functionNotCalled (name : String)
  /-- "comma must appear inside function arguments" (parser) -/
  | misplacedComma
  /-- "mismatched parentheses" (parser) -/
  | mismatchedParens
  /-- "function call missing name" (parser) -/
  | missingFunctionName
  /-- "function call missing parentheses" (parser, drain phase) -/
  | functionMissingParens
  /-- "not enough operands" (both evaluators) -/
  | notEnoughOperands
  /-- "function %q expects ... argument(s)" (both evaluators) -/
  | wrongArity (name : String)
  /-- "unknown function: %q" (float evaluator) -/
  | unknownFunction (name : String)
  /-- "unknown operator: %q" (float evaluator) -/
  | unknownOperator (op : String)
  /-- "unexpected token in RPN" (both evaluators) -/
  | unexpectedTokenInRPN
  /-- "expression error: extra values" (both evaluators) -/
  | extraValues
  /-- "non-numeric literal %q not supported in money expressions" -/
  | nonNumericLiteral (txt : String)
  /-- "empty number" (parseCents) -/
  | emptyNumber
  /-- "exponent notation not supported in money expressions: %q" -/
  | exponentNotSupported (txt : String)
  /-- "invalid money number %q" (parseCents) -/
  | invalidMoneyNumber (txt : String)
  /-- "too many decimal places in %q" (parseCents) -/
  | tooManyDecimals (txt : String)
  /-- "overflow while adding values" (addInt64) -/
  | overflowAdd
  /-- "overflow while subtracting values" (subInt64) -/
  | overflowSub
  /-- "overflow while multiplying values" (mulInt64) -/
  | overflowMul
  /-- "overflow while negating value" (money NEG) -/
  | overflowNeg
  /-- "overflow while computing abs" (money abs) -/
  | overflowAbs
  /-- "money value overflow for %q" (parseCents scaling) -/
  | moneyValueOverflow (txt : String)
  /-- "division by zero" (divRound) -/
  | divisionByZero
  /-- "function %q not supported in money expressions" -/
  | unsupportedFunction (name : String)
  /-- "operator %q not supported in money expressions" -/
  | unsupportedOperator (op : String)
deriving DecidableEq

/-- `TokenType` of math.go. -/
inductive TokenType where
  | TNumber
  | TOp
  | TFunc
  | TComma
  | TLParen
  | TRParen
deriving DecidableEq

/-- `Token` of math.go.  `Value` (a Go `float64`) is modelled as an exact
rational; `Arity` (a Go `int`, only ever assigned nonnegative argument
counts) as `Nat`.  Zero defaults mirror Go zero values. -/
structure Token where
  Typ : TokenType
  Text : String
  Value : ℚ := 0
  Arity : Nat := 0
deriving DecidableEq

/-- `isOpByte` of math.go. -/
def isOpByte (b : Char) : Bool :=
  b == '+' || b == '-' || b == '*' || b == '/' || b == '^' || b == '%'

/-- `isIdentStart` of math.go. -/
def isIdentStart (b : Char) : Bool :=
  ('a' ≤ b && b ≤ 'z') || ('A' ≤ b && b ≤ 'Z') || b == '_'

/-- digit test `c >= '0' && c <= '9'` used throughout math.go. -/
def isDigitB (b : Char) : Bool :=
  '0' ≤ b && b ≤ '9'

/-- `isIdentContinue` of math.go. -/
def isIdentContinue (b : Char) : Bool :=
  isIdentStart b || isDigitB b

/-- `isNumStart` of math.go, phrased on the current byte and the rest of
the input instead of an index. -/
def isNumStart (c : Char) (rest : List Char) : Bool :=
  if isDigitB c then true
  else if c == '.' then
    match rest with
    | d :: _ => isDigitB d
    | [] => false
  else false

/-- `unicode.IsSpace (rune (s i))` on a single byte: the byte values the
Go predicate accepts (tab, LF, VT, FF, CR, space, NEL 0x85, NBSP 0xA0). -/
def isSpaceB (c : Char) : Bool :=
  c == ' ' || c == '\t' || c == '\n' || c.toNat == 11 || c.toNat == 12 ||
    c == '\r' || c.toNat == 133 || c.toNat == 160

/-- ASCII case folding, the effect of `strings.ToLower` on the byte range
the lexer can group into an identifier. -/
def charToLower (c : Char) : Char :=
  if 'A' ≤ c && c ≤ 'Z' then Char.ofNat (c.toNat + 32) else c

/-- the exact rational value of the `float64` constant `math.Pi`. -/
def piF64 : ℚ := 7074237752028440 / 2251799813685248

/-- the exact rational value of the `float64` constant `math.E`. -/
def eF64 : ℚ := 6121026514868073 / 2251799813685248

/-- the `constants` map of math.go. -/
def constants (name : String) : Option ℚ :=
  if name = "pi" then some piF64
  else if name = "e" then some eF64
  else none

/-- value of a (most-significant-first) list of decimal digit characters. -/
def natOfDigits (cs : List Char) : Nat :=
  cs.foldl (fun n c => n * 10 + (c.toNat - 48)) 0

/-- ten to an integer power in `ℚ` (for exact scientific-notation values). -/
def qpow10 (n : ℤ) : ℚ :=
  if 0 ≤ n then (10 : ℚ) ^ n.toNat else ((10 : ℚ) ^ (-n).toNat)⁻¹

/-- Split a character list at the first character satisfying `p`:
the part before it, and (when present) the part after it. -/
def splitFirst (p : Char → Bool) (cs : List Char) : List Char × Option (List Char) :=
  (cs.takeWhile (fun c => !(p c)),
    match cs.dropWhile (fun c => !(p c)) with
    | [] => none
    | _ :: tl => some tl)

/-- Exact-rational model of `strconv.ParseFloat` on the digit strings the
lexer's number scanner produces (digits, at most one dot, optional
exponent with optional sign).  ParseFloat additionally rounds to the
nearest binary64 value and reports a range error beyond its range;
every literal evaluated by a claim below is exactly representable and in
range, where the exact parse and ParseFloat agree. -/
def parseFloatQ (cs : List Char) : ℚ :=
  let (mant, expPart) := splitFirst (fun c => c == 'e' || c == 'E') cs
  let (ip, fpOpt) := splitFirst (fun c => c == '.') mant
  let fp := fpOpt.getD []
  let base : ℚ := (natOfDigits ip : ℚ) + (natOfDigits fp : ℚ) / (10 : ℚ) ^ fp.length
  match expPart with
  | none => base
  | some es =>
    match es with
    | '+' :: ds => base * qpow10 (natOfDigits ds : ℤ)
    | '-' :: ds => base * qpow10 (-(natOfDigits ds : ℤ))
    | ds => base * qpow10 (natOfDigits ds : ℤ)

/-- The exponent-suffix part of math.go's number scanner: past the `e`/`E`
(already in `acc`), an optional sign, then at least one digit; zero
digits fail with "invalid exponent in number near" the text scanned so
far.  Scanning stops after the exponent (the Go loop `break`s). -/
def scanExp (acc : List Char) (cs : List Char) : Except Err (List Char × List Char) :=
  let signSplit : List Char × List Char :=
    match cs with
    | c :: rest => if c == '+' || c == '-' then (acc ++ [c], rest) else (acc, cs)
    | [] => (acc, cs)
  let acc2 := signSplit.1
  let cs2 := signSplit.2
  let ds := cs2.takeWhile isDigitB
  if ds.isEmpty then .error (.invalidExponent (String.mk acc2))
  else .ok (acc2 ++ ds, cs2.dropWhile isDigitB)

/-- The numeric-literal scanning loop of math.go's `tokenize`: consumes
digits and at most one dot (a second dot fails with "invalid number
near" the text up to and including it), hands over to `scanExp` on an
`e`/`E` preceded by a digit, and stops at any other byte.  `acc` is the
text consumed so far, returned together with the unconsumed rest. -/
def scanNumCore : List Char → List Char → Nat → Bool → Except Err (List Char × List Char)
  | acc, [], _, _ => .ok (acc, [])
  | acc, c :: rest, dotCount, hasDigits =>
    if c == '.' then
      if dotCount + 1 > 1 then .error (.invalidNumber (String.mk (acc ++ [c])))
      else scanNumCore (acc ++ [c]) rest (dotCount + 1) hasDigits
    else if isDigitB c then scanNumCore (acc ++ [c]) rest dotCount true
    else if (c == 'e' || c == 'E') && hasDigits then scanExp (acc ++ [c]) rest
    else .ok (acc, c :: rest)

/-- One pass of `tokenize` of math.go, with explicit fuel so the
recursion is structural (the Go loop consumes at least one byte per
iteration, so `length + 1` fuel never runs out). -/
def tokenizeAux : Nat → List Char → Except Err (List Token)
  | _, [] => .ok []
  | 0, _ :: _ => .error .lexOutOfFuel
  | fuel + 1, c :: rest =>
    if isSpaceB c then tokenizeAux fuel rest
    else if c == ',' then
      (tokenizeAux fuel rest).map (fun ts => { Typ := .TComma, Text := "," } :: ts)
    else if c == '(' then
      (tokenizeAux fuel rest).map (fun ts => { Typ := .TLParen, Text := "(" } :: ts)
    else if c == ')' then
      (tokenizeAux fuel rest).map (fun ts => { Typ := .TRParen, Text := ")" } :: ts)
    else if isOpByte c then
      (tokenizeAux fuel rest).map (fun ts => { Typ := .TOp, Text := String.mk [c] } :: ts)
    else if isIdentStart c then
      let name := (c :: rest.takeWhile isIdentContinue).map charToLower
      let rest2 := rest.dropWhile isIdentContinue
      let tok : Token :=
        match constants (String.mk name) with
        | some v => { Typ := .TNumber, Text := String.mk name, Value := v }
        | none => { Typ := .TFunc, Text := String.mk name }
      (tokenizeAux fuel rest2).map (fun ts => tok :: ts)
    else if isNumStart c rest then
      match scanNumCore [] (c :: rest) 0 false with
      | .error e => .error e
      | .ok (txt, rest2) =>
        (tokenizeAux fuel rest2).map
          (fun ts => { Typ := .TNumber, Text := String.mk txt, Value := parseFloatQ txt } :: ts)
    else .error (.unexpectedChar c)

/-- `tokenize` of math.go. -/
def tokenize (s : String) : Except Err (List Token) :=
  tokenizeAux (s.data.length + 1) s.data

/-- `precedence` of math.go. -/
def precedence (op : String) : Nat :=
  if op = "NEG" then 4
  else if op = "POS" then 4
  else if op = "^" then 3
  else if op = "*" ∨ op = "/" ∨ op = "%" then 2
  else if op = "+" ∨ op = "-" then 1
  else 0

/-- `rightAssociative` of math.go. -/
def rightAssociative (op : String) : Bool :=
  op == "^" || op == "NEG" || op == "POS"

/-- The mutable state of `toRPN` of math.go: output sequence, operator
stack, and the per-open-parenthesis call flags and argument counters.
The heads of `stack`, `funcParen` and `argCount` are the Go slices'
last elements (the tops). -/
structure PState where
  out : List Token
  stack : List Token
  funcParen : List Bool
  argCount : List Nat
deriving DecidableEq

/-- Go test `prev == nil || prev.Typ == TOp || prev.Typ == TLParen ||
prev.Typ == TComma` deciding that a `+`/`-` is unary. -/
def isUnaryPrev (prev : Option Token) : Bool :=
  match prev with
  | none => true
  | some p => p.Typ == .TOp || p.Typ == .TLParen || p.Typ == .TComma

/-- The unary-operator rewriting of the `TOp` case of `toRPN`: a `-` or
`+` in unary position becomes the marker "NEG" or "POS". -/
def rewriteUnary (t : Token) (prev : Option Token) : Token :=
  if (t.Text == "-" || t.Text == "+") && isUnaryPrev prev then
    { t with Text := if t.Text == "-" then "NEG" else "POS" }
  else t

/-- The precedence-popping loop of the `TOp` case of `toRPN`: pops
stacked operators to the output while the standard shunting-yard
condition holds.  Returns the popped run (in pop order) and the rest of
the stack. -/
def popOps (t : Token) : List Token → List Token × List Token
  | [] => ([], [])
  | top :: rest =>
    if top.Typ == .TOp then
      let p1 := precedence t.Text
      let p2 := precedence top.Text
      if (rightAssociative t.Text && decide (p1 < p2)) ||
          (!rightAssociative t.Text && decide (p1 ≤ p2)) then
        let r := popOps t rest
        (top :: r.1, r.2)
      else ([], top :: rest)
    else ([], top :: rest)

/-- The `TComma` popping loop of `toRPN`: pops to the output until a left
paren is exposed, without consuming it.  Returns the popped run, the
remaining stack, and whether a left paren was found. -/
def popToParenKeep : List Token → List Token × List Token × Bool
  | [] => ([], [], false)
  | top :: rest =>
    if top.Typ == .TLParen then ([], top :: rest, true)
    else
      let r := popToParenKeep rest
      (top :: r.1, r.2.1, r.2.2)

/-- The `TRParen` popping loop of `toRPN`: pops to the output until a
left paren is found and consumed.  Returns the popped run, the stack
below the consumed paren, and whether one was found. -/
def popToParenDrop : List Token → List Token × List Token × Bool
  | [] => ([], [], false)
  | top :: rest =>
    if top.Typ == .TLParen then ([], rest, true)
    else
      let r := popToParenDrop rest
      (top :: r.1, r.2.1, r.2.2)

/-- One iteration of the token loop of `toRPN` of math.go, processing
token `t` with lookahead `la` (the following token, for the
function-must-be-called check) and `prev` (the previous original
token). -/
def toRPNStep (t : Token) (la : Option Token) (prev : Option Token) (s : PState) :
    Except Err PState :=
  match t.Typ with
  | .TNumber => .ok { s with out := s.out ++ [t] }
  | .TFunc =>
    match la with
    | some n =>
      if n.Typ == .TLParen then .ok { s with stack := t :: s.stack }
      else .error (.functionNotCalled t.Text)
    | none => .error (.functionNotCalled t.Text)
  | .TLParen =>
    .ok { s with
      stack := t :: s.stack,
      funcParen := (match prev with
        | some p => p.Typ == .TFunc
        | none => false) :: s.funcParen,
      argCount := 0 :: s.argCount }
  | .TComma =>
    let r := popToParenKeep s.stack
    if !r.2.2 || s.funcParen.isEmpty || !(s.funcParen.headD false) then
      .error .misplacedComma
    else
      .ok { s with
        out := s.out ++ r.1,
        stack := r.2.1,
        -- `argCount` is never empty here: it is pushed and popped in
        -- lockstep with `funcParen`, whose nonemptiness was just checked.
        argCount := match s.argCount with
          | c :: cs => (c + 1) :: cs
          | [] => [] }
  | .TRParen =>
    let r := popToParenDrop s.stack
    if !r.2.2 then .error .mismatchedParens
    else if s.funcParen.isEmpty then .error .mismatchedParens
    else
      let isFuncCall := s.funcParen.headD false
      let argc := s.argCount.headD 0
      let out2 := s.out ++ r.1
      if isFuncCall then
        let argc2 : Nat :=
          match prev with
          | some p => if p.Typ == .TLParen then 0 else argc + 1
          | none => argc + 1
        match r.2.1 with
        | fn :: below =>
          if fn.Typ == .TFunc then
            .ok { out := out2 ++ [{ fn with Arity := argc2 }],
                  stack := below,
                  funcParen := s.funcParen.tail,
                  argCount := s.argCount.tail }
          else .error .missingFunctionName
        | [] => .error .missingFunctionName
      else
        .ok { out := out2, stack := r.2.1,
              funcParen := s.funcParen.tail, argCount := s.argCount.tail }
  | .TOp =>
    let t2 := rewriteUnary t prev
    let r := popOps t2 s.stack
    .ok { s with out := s.out ++ r.1, stack := t2 :: r.2 }

/-- The token loop of `toRPN`.  `prev` carries the previous original
token, as the Go `prev = &tokens[i]` does. -/
def toRPNLoop : List Token → Option Token → PState → Except Err PState
  | [], _, s => .ok s
  | t :: rest, prev, s =>
    match toRPNStep t rest.head? prev s with
    | .error e => .error e
    | .ok s2 => toRPNLoop rest (some t) s2

/-- The final stack drain of `toRPN`: residual parens fail with
"mismatched parentheses", a residual function with "function call
missing parentheses". -/
def drainStack : List Token → List Token → Except Err (List Token)
  | [], out => .ok out
  | top :: rest, out =>
    if top.Typ == .TLParen || top.Typ == .TRParen then .error .mismatchedParens
    else if top.Typ == .TFunc then .error .functionMissingParens
    else drainStack rest (out ++ [top])

/-- `toRPN` of math.go. -/
def toRPN (tokens : List Token) : Except Err (List Token) :=
  match toRPNLoop tokens none ⟨[], [], [], []⟩ with
  | .error e => .error e
  | .ok s => drainStack s.stack s.out

/-- Integer power in `ℚ` (negative exponents via the field inverse). -/
def qzpow (a : ℚ) (n : ℤ) : ℚ :=
  if 0 ≤ n then a ^ n.toNat else (a ^ (-n).toNat)⁻¹

/-- Model of `math.Pow` on the rationals: exact for an integer exponent
(the only exponents any verified claim evaluates — on them binary64
`math.Pow` is exact whenever the result is representable); a non-integer
exponent, which Go computes transcendentally, is outside the rational
model and mapped to `0`. -/
def powQ (a b : ℚ) : ℚ :=
  if b.den = 1 then qzpow a b.num else 0

/-- The 14 one-argument functions of the float evaluator's catalog.
`abs`, `floor`, `ceil` and `round` (round half away from zero, the
`math.Round` rule) are exact on the rationals and modelled exactly; the
ten transcendental ones are outside the rational model and mapped to
`0` (no verified claim evaluates them). -/
def unaryFloatFn (name : String) (x : ℚ) : ℚ :=
  if name = "abs" then |x|
  else if name = "floor" then (⌊x⌋ : ℚ)
  else if name = "ceil" then (⌈x⌉ : ℚ)
  else if name = "round" then ((if 0 ≤ x then ⌊x + 1 / 2⌋ else ⌈x - 1 / 2⌉ : ℤ) : ℚ)
  else 0

/-- The Go membership test of the 14 one-argument function names. -/
def isUnaryFloatName (name : String) : Bool :=
  name == "sin" || name == "cos" || name == "tan" || name == "asin" ||
    name == "acos" || name == "atan" || name == "sqrt" || name == "abs" ||
    name == "ln" || name == "log" || name == "exp" || name == "floor" ||
    name == "ceil" || name == "round"

/-- The binary-operator dispatch of `evalRPN` of math.go (`a` popped
second, `b` popped first, i.e. `b` was the top of the stack).  Division
by zero, which IEEE-754 maps to an infinity or NaN, is outside the
rational model (no verified claim divides by zero). -/
def binOpQ (op : String) (a b : ℚ) : ℚ :=
  if op = "+" then a + b
  else if op = "-" then a - b
  else if op = "*" then a * b
  else if op = "/" then a / b
  else if op = "%" then a * b / 100
  else if op = "^" then powQ a b
  else 0

/-- The fold `res := args 0; for i ... res = min/max(res, args i)` of the
variadic `min`/`max` case, shared by both evaluators. -/
def foldMinMax {α : Type} [LinearOrder α] (isMin : Bool) (a : α) (rest : List α) : α :=
  rest.foldl (fun r x => if isMin then (if x < r then x else r) else (if x > r then x else r)) a

/-- One iteration of the evaluation loop of `evalRPN` of math.go, acting
on the `float64` (here: rational) stack whose head is the top. -/
def evalStep (t : Token) (st : List ℚ) : Except Err (List ℚ) :=
  match t.Typ with
  | .TNumber => .ok (t.Value :: st)
  | .TFunc =>
    if isUnaryFloatName t.Text then
      if t.Arity ≠ 1 then .error (.wrongArity t.Text)
      else
        match st with
        | x :: rest => .ok (unaryFloatFn t.Text x :: rest)
        | [] => .error .notEnoughOperands
    else if t.Text = "min" ∨ t.Text = "max" then
      if t.Arity < 2 then .error (.wrongArity t.Text)
      else if st.length < t.Arity then .error .notEnoughOperands
      else
        -- `popN` returns the popped values deepest-first: the reverse of
        -- the top `Arity` elements of the stack.
        match (st.take t.Arity).reverse with
        | a :: rest => .ok (foldMinMax (t.Text == "min") a rest :: st.drop t.Arity)
        | [] => .error .notEnoughOperands  -- unreachable: Arity ≥ 2
    else if t.Text = "pow" ∨ t.Text = "atan2" then
      if t.Arity ≠ 2 then .error (.wrongArity t.Text)
      else
        match st with
        | b :: a :: rest =>
          -- atan2 is transcendental: outside the rational model, mapped
          -- to 0 (never evaluated by a verified claim).
          .ok ((if t.Text = "pow" then powQ a b else 0) :: rest)
        | _ => .error .notEnoughOperands
    else if t.Text = "logn" then
      if t.Arity ≠ 2 then .error (.wrongArity t.Text)
      else
        match st with
        -- ln(a)/ln(b) is transcendental: outside the rational model.
        | _ :: _ :: rest => .ok ((0 : ℚ) :: rest)
        | _ => .error .notEnoughOperands
    else .error (.unknownFunction t.Text)
  | .TOp =>
    if t.Text = "NEG" then
      match st with
      | a :: rest => .ok (-a :: rest)
      | [] => .error .notEnoughOperands
    else if t.Text = "POS" then
      match st with
      | a :: rest => .ok (a :: rest)
      | [] => .error .notEnoughOperands
    else if t.Text = "+" ∨ t.Text = "-" ∨ t.Text = "*" ∨ t.Text = "/" ∨
        t.Text = "%" ∨ t.Text = "^" then
      match st with
      | b :: a :: rest => .ok (binOpQ t.Text a b :: rest)
      | _ => .error .notEnoughOperands
    else .error (.unknownOperator t.Text)
  | _ => .error .unexpectedTokenInRPN

/-- The evaluation loop of `evalRPN`, ending with the exactly-one-value
check. -/
def evalLoop : List Token → List ℚ → Except Err ℚ
  | [], st =>
    match st with
    | [v] => .ok v
    | _ => .error .extraValues
  | t :: ts, st =>
    match evalStep t st with
    | .error e => .error e
    | .ok st2 => evalLoop ts st2

/-- `evalRPN` of math.go. -/
def evalRPN (rpn : List Token) : Except Err ℚ :=
  evalLoop rpn []

/-- `EvalExpression` of math.go. -/
def EvalExpression (expr : String) : Except Err ℚ :=
  match tokenize expr with
  | .error e => .error e
  | .ok toks =>
    match toRPN toks with
    | .error e => .error e
    | .ok rpn => evalRPN rpn

/-- `moneyScale` of the money evaluator. -/
def moneyScale : ℤ := 100

/-- `percentScale` of the money evaluator. -/
def percentScale : ℤ := 10000

/-- `math.MinInt64`. -/
def int64Min : ℤ := -(2 ^ 63)

/-- `math.MaxInt64`. -/
def int64Max : ℤ := 2 ^ 63 - 1

/-- Membership in the signed 64-bit range. -/
def in64 (z : ℤ) : Prop := int64Min ≤ z ∧ z ≤ int64Max

instance (z : ℤ) : Decidable (in64 z) := by
  unfold in64; infer_instance

/-- Two's-complement wrapping of a mathematical integer into the signed
64-bit range: the value a Go `int64` operation that overflows produces. -/
def wrap64 (z : ℤ) : ℤ := (z + 2 ^ 63) % 2 ^ 64 - 2 ^ 63

/-- `allDigits` of the money evaluator. -/
def allDigits (cs : List Char) : Bool :=
  !cs.isEmpty && cs.all isDigitB

/-- The scanning loop of `isNumericLiteral`, tracking whether a dot was
seen. -/
def numLitLoop : List Char → Bool → Bool
  | [], _ => true
  | c :: rest, dotSeen =>
    if c == '.' then
      if dotSeen then false else numLitLoop rest true
    else if isDigitB c then numLitLoop rest dotSeen
    else false

/-- `isNumericLiteral` of the money evaluator. -/
def isNumericLiteral (txt : String) : Bool :=
  if txt.data.isEmpty then false
  else if txt.data.any (fun c => c == 'e' || c == 'E') then false
  else numLitLoop txt.data false

/-- `addInt64` of the money evaluator: overflow-checked 64-bit addition.
The guarded `a + b` cannot in fact wrap; `wrap64` records that the Go
`+` is two's-complement. -/
def addInt64 (a b : ℤ) : Except Err ℤ :=
  if b > 0 ∧ a > int64Max - b then .error .overflowAdd
  else if b < 0 ∧ a < int64Min - b then .error .overflowAdd
  else .ok (wrap64 (a + b))

/-- `subInt64` of the money evaluator: overflow-checked 64-bit
subtraction. -/
def subInt64 (a b : ℤ) : Except Err ℤ :=
  if b > 0 ∧ a < int64Min + b then .error .overflowSub
  else if b < 0 ∧ a > int64Max + b then .error .overflowSub
  else .ok (wrap64 (a - b))

/-- `mulInt64` of the money evaluator: overflow-checked 64-bit
multiplication via `bits.Mul64` on the absolute values.  `absUint64`
(two's-complement absolute value into `uint64`) is `Int.natAbs` for
every in-range input, including `MinInt64`; `hi`/`lo` are the high and
low 64-bit halves of the full product. -/
def mulInt64 (a b : ℤ) : Except Err ℤ :=
  if a = 0 ∨ b = 0 then .ok 0
  else
    let ua : ℕ := a.natAbs
    let ub : ℕ := b.natAbs
    let p : ℕ := ua * ub
    let hi : ℕ := p / 2 ^ 64
    let lo : ℕ := p % 2 ^ 64
    if hi ≠ 0 then .error .overflowMul
    else if decide (a < 0) = decide (b < 0) then
      -- signNegative = false
      if lo > 2 ^ 63 - 1 then .error .overflowMul
      else .ok ((lo : ℤ))
    else
      if lo > 2 ^ 63 then .error .overflowMul
      else if lo = 2 ^ 63 then .ok int64Min
      else .ok (-(lo : ℤ))

/-- `divRound` of the money evaluator.  `q := n / d` and `r := n % d` are
Go's truncated 64-bit division and remainder: `Int.tdiv`/`Int.tmod`
wrapped two's-complement (per the Go specification the lone overflowing
quotient, `MinInt64 / -1`, wraps to `MinInt64`; the remainder never
overflows).  `absR * 2` is computed in `uint64`, where it cannot wrap
since `absR < absD ≤ 2 ^ 63`. -/
def divRound (n d : ℤ) : Except Err ℤ :=
  if d = 0 then .error .divisionByZero
  else
    let q := wrap64 (n.tdiv d)
    let r := n.tmod d
    if r = 0 then .ok q
    else if d.natAbs ≤ 2 * r.natAbs then
      if (decide (n > 0)) = (decide (d > 0)) then .ok (wrap64 (q + 1))
      else .ok (wrap64 (q - 1))
    else .ok q

/-- right-padding of the fractional part to two digits (the
`for len(fracPart) < 2` loop of `parseCents`). -/
def padTo2 (fp : List Char) : List Char :=
  fp ++ List.replicate (2 - fp.length) ('0')

/-- `parseCents` of the money evaluator.  `strings.SplitN (txt, ".", 2)`
becomes the split at the first dot; `strconv.ParseInt`'s syntax checks
are subsumed by the preceding `allDigits` guards, and its bit-size-64
range failure is the `> int64Max` test. -/
def parseCents (txt : String) : Except Err ℤ :=
  let cs := txt.data
  if cs.isEmpty then .error .emptyNumber
  else if cs.any (fun c => c == 'e' || c == 'E') then .error (.exponentNotSupported txt)
  else if 1 < cs.countP (fun c => c == '.') then .error (.invalidMoneyNumber txt)
  else
    let sp := splitFirst (fun c => c == '.') cs
    let intPart0 := sp.1
    let fracPart0 := sp.2.getD []
    let intPart := if intPart0.isEmpty then ['0'] else intPart0
    let fracPart := if fracPart0.isEmpty then ['0'] else fracPart0
    if !(allDigits intPart && allDigits fracPart) then .error (.invalidMoneyNumber txt)
    else if 2 < fracPart.length then .error (.tooManyDecimals txt)
    else
      let whole := (natOfDigits intPart : ℤ)
      let frac := (natOfDigits (padTo2 fracPart) : ℤ)
      if int64Max < whole then .error (.invalidMoneyNumber txt)
      else if int64Max < frac then .error (.invalidMoneyNumber txt)
      else
        match mulInt64 whole moneyScale with
        | .error _ => .error (.moneyValueOverflow txt)
        | .ok wholeCents => addInt64 wholeCents frac

/-- One iteration of the evaluation loop of `evalRPNMoney`, acting on
the `int64` (here: range-tracked `ℤ`) stack whose head is the top. -/
def moneyStep (t : Token) (st : List ℤ) : Except Err (List ℤ) :=
  match t.Typ with
  | .TNumber =>
    if !(isNumericLiteral t.Text) then .error (.nonNumericLiteral t.Text)
    else
      match parseCents t.Text with
      | .error e => .error e
      | .ok v => .ok (v :: st)
  | .TFunc =>
    if t.Text = "abs" then
      if t.Arity ≠ 1 then .error (.wrongArity t.Text)
      else
        match st with
        | a :: rest =>
          if a = int64Min then .error .overflowAbs
          else if a < 0 then .ok (-a :: rest)
          else .ok (a :: rest)
        | [] => .error .notEnoughOperands
    else if t.Text = "min" ∨ t.Text = "max" then
      if t.Arity < 2 then .error (.wrongArity t.Text)
      else if st.length < t.Arity then .error .notEnoughOperands
      else
        match (st.take t.Arity).reverse with
        | a :: rest => .ok (foldMinMax (t.Text == "min") a rest :: st.drop t.Arity)
        | [] => .error .notEnoughOperands  -- unreachable: Arity ≥ 2
    else .error (.unsupportedFunction t.Text)
  | .TOp =>
    if t.Text = "NEG" then
      match st with
      | a :: rest =>
        if a = int64Min then .error .overflowNeg else .ok (-a :: rest)
      | [] => .error .notEnoughOperands
    else if t.Text = "POS" then
      match st with
      | a :: rest => .ok (a :: rest)
      | [] => .error .notEnoughOperands
    else if t.Text = "+" ∨ t.Text = "-" ∨ t.Text = "*" ∨ t.Text = "/" ∨
        t.Text = "%" then
      match st with
      | b :: a :: rest =>
        let res : Except Err ℤ :=
          if t.Text = "+" then addInt64 a b
          else if t.Text = "-" then subInt64 a b
          else if t.Text = "*" then
            match mulInt64 a b with
            | .error e => .error e
            | .ok prod => divRound prod moneyScale
          else if t.Text = "/" then
            match mulInt64 a moneyScale with
            | .error e => .error e
            | .ok num => divRound num b
          else
            match mulInt64 a b with
            | .error e => .error e
            | .ok prod => divRound prod percentScale
        match res with
        | .error e => .error e
        | .ok v => .ok (v :: rest)
      | _ => .error .notEnoughOperands
    else .error (.unsupportedOperator t.Text)
  | _ => .error .unexpectedTokenInRPN

/-- The evaluation loop of `evalRPNMoney`, ending with the
exactly-one-value check. -/
def moneyLoop : List Token → List ℤ → Except Err ℤ
  | [], st =>
    match st with
    | [v] => .ok v
    | _ => .error .extraValues
  | t :: ts, st =>
    match moneyStep t st with
    | .error e => .error e
    | .ok st2 => moneyLoop ts st2

/-- `evalRPNMoney` of the money evaluator. -/
def evalRPNMoney (rpn : List Token) : Except Err ℤ :=
  moneyLoop rpn []

/-- `EvalMoneyExpression` of the money evaluator. -/
def EvalMoneyExpression (expr : String) : Except Err ℤ :=
  match tokenize expr with
  | .error e => .error e
  | .ok toks =>
    match toRPN toks with
    | .error e => .error e
    | .ok rpn => evalRPNMoney rpn

/-- Specification-side definition (independent of the code): the real
number `x` rounded to the nearest integer with ties away from zero. -/
def roundHalfAwayFromZero (x : ℚ) : ℤ :=
  if 0 ≤ x then ⌊x + 1 / 2⌋ else ⌈x - 1 / 2⌉

/-- The lexing-plus-parsing front half of both entry points: the RPN
form of an expression string. -/
def rpnOf (s : String) : Except Err (List Token) :=
  match tokenize s with
  | .error e => .error e
  | .ok toks => toRPN toks

set_option maxRecDepth 4000 in
/-- C2: `EvalExpression` applies the fixed precedence and associativity
table — unary NEG/POS at level 4 right-associative, `^` at 3
right-associative, `*` `/` `%` at 2 left-associative, binary `+` `-` at
1 left-associative — so `"2^3^2"` evaluates to 512, `"2+3*4"` to 14 and
`"10-6/3"` to 8. -/
theorem C2_precedence_table_and_examples :
    precedence ("NEG") = 4 ∧ precedence ("POS") = 4 ∧
    rightAssociative ("NEG") = true ∧ rightAssociative ("POS") = true ∧
    precedence ("^") = 3 ∧ rightAssociative ("^") = true ∧
    precedence ("*") = 2 ∧ precedence ("/") = 2 ∧ precedence ("%") = 2 ∧
    rightAssociative ("*") = false ∧ rightAssociative ("/") = false ∧
    rightAssociative ("%") = false ∧
    precedence ("+") = 1 ∧ precedence ("-") = 1 ∧
    rightAssociative ("+") = false ∧ rightAssociative ("-") = false ∧
    EvalExpression ("2^3^2") = .ok 512 ∧
    EvalExpression ("2+3*4") = .ok 14 ∧
    EvalExpression ("10-6/3") = .ok 8 := by
  with_unfolding_all decide

/-- C5: in the float evaluator, `%` applied to `a` (popped second) and
`b` (popped first, the top of stack) pushes `a * b / 100` — the
"percentage of" reading — for every pair of operands; on `"5%2"` this
yields 1/10, which differs from the mathematical modulo 5 mod 2 = 1. -/
theorem C5_percent_is_percentage_of :
    (∀ (a b : ℚ) (rest : List ℚ),
      evalStep { Typ := .TOp, Text := "%" } (b :: a :: rest) = .ok (a * b / 100 :: rest)) ∧
    EvalExpression ("5%2") = .ok (1 / 10) ∧
    ((1 : ℚ) / 10) ≠ 1 := by
  refine ⟨fun a b rest => rfl, by with_unfolding_all decide, by norm_num⟩

/-- C8: each malformed input fails in the stated error class:
`"(2+3"` with mismatched parentheses, `"sin"` (a function identifier
never followed by a left paren) with function-not-called, `"1..2"` with
an invalid-number lex error carrying the offending prefix, and `"2,3"`
(a comma outside any call) with a misplaced-comma error. -/
theorem C8_malformed_inputs :
    EvalExpression ("(2+3") = .error .mismatchedParens ∧
    EvalExpression ("sin") = .error (.functionNotCalled ("sin")) ∧
    EvalExpression ("1..2") = .error (.invalidNumber ("1..")) ∧
    EvalExpression ("2,3") = .error .misplacedComma := by
  decide

set_option maxRecDepth 4000 in
/-- C3: a `+` or `-` is treated as unary exactly when the previous token
is absent or is an Operator, LeftParen or Comma; it is then rewritten to
"POS"/"NEG" with precedence 4 and right associativity, and otherwise
keeps binary precedence 1.  Consequently `"(-3)+5"` = 2, `"2*-3"` = -6,
`"-(3+4)*2"` = -14 and `"2^-3"` = 0.125. -/
theorem C3_unary_rewrite :
    (∀ (t : Token) (prev : Option Token), t.Text = "-" ∨ t.Text = "+" →
      isUnaryPrev prev = true →
      rewriteUnary t prev = { t with Text := if t.Text == "-" then "NEG" else "POS" } ∧
      precedence (rewriteUnary t prev).Text = 4 ∧
      rightAssociative (rewriteUnary t prev).Text = true) ∧
    (∀ (t : Token) (prev : Option Token), t.Text = "-" ∨ t.Text = "+" →
      isUnaryPrev prev = false →
      rewriteUnary t prev = t ∧ precedence t.Text = 1) ∧
    (∀ prev : Option Token, isUnaryPrev prev = true ↔
      prev = none ∨ ∃ p, prev = some p ∧
        (p.Typ = .TOp ∨ p.Typ = .TLParen ∨ p.Typ = .TComma)) ∧
    EvalExpression ("(-3)+5") = .ok 2 ∧
    EvalExpression ("2*-3") = .ok (-6) ∧
    EvalExpression ("-(3+4)*2") = .ok (-14) ∧
    EvalExpression ("2^-3") = .ok (0.125 : ℚ) := by
  refine ⟨?_, ?_, ?_, ?_, ?_, ?_, ?_⟩
  · intro t prev ht hu
    have hcond : ((t.Text == "-" || t.Text == "+") && isUnaryPrev prev) = true := by
      rcases ht with h | h <;> simp [h, hu]
    refine ⟨by rw [rewriteUnary, if_pos hcond], ?_, ?_⟩ <;>
      rw [rewriteUnary, if_pos hcond] <;>
      rcases ht with h | h <;> simp [h, precedence, rightAssociative]
  · intro t prev ht hu
    have hcond : ((t.Text == "-" || t.Text == "+") && isUnaryPrev prev) = false := by
      simp [hu]
    refine ⟨by rw [rewriteUnary, if_neg (by simp [hcond])], ?_⟩
    rcases ht with h | h <;> simp [h, precedence]
  · intro prev
    cases prev with
    | none => simp [isUnaryPrev]
    | some p => simp [isUnaryPrev, or_assoc]
  · with_unfolding_all decide
  · with_unfolding_all decide
  · with_unfolding_all decide
  · with_unfolding_all decide

/-- Witness for C3: the `-` of `"2*-3"` (previous token the operator
`*`) is rewritten to the unary marker "NEG" of precedence 4. -/
theorem C3_unary_rewrite_witness :
    rewriteUnary { Typ := .TOp, Text := "-" } (some { Typ := .TOp, Text := "*" }) =
      { Typ := .TOp, Text := "NEG" } ∧
    precedence (rewriteUnary { Typ := .TOp, Text := "-" }
      (some { Typ := .TOp, Text := "*" })).Text = 4 := by
  have h := C3_unary_rewrite.1 { Typ := .TOp, Text := "-" }
    (some { Typ := .TOp, Text := "*" }) (Or.inl rfl) (by decide)
  exact ⟨by simpa using h.1, h.2.1⟩

/-- The fold of the variadic `min` case computes a member of the
argument list that is a lower bound of it. -/
theorem foldMinMax_min_spec {α : Type} [LinearOrder α] (a : α) (l : List α) :
    foldMinMax true a l ∈ a :: l ∧ ∀ x ∈ a :: l, foldMinMax true a l ≤ x := by
  induction l generalizing a with
  | nil =>
    refine ⟨List.mem_singleton_self a, ?_⟩
    intro x hx
    rw [List.mem_singleton.1 hx]
    exact le_refl _
  | cons x l ih =>
    obtain ⟨hmem, hle⟩ := ih (if x < a then x else a)
    have heq : foldMinMax true a (x :: l) = foldMinMax true (if x < a then x else a) l := rfl
    rw [heq]
    have hstep : (if x < a then x else a) ≤ a ∧ (if x < a then x else a) ≤ x := by
      by_cases hxa : x < a <;> simp [hxa]
      · exact le_of_lt hxa
      · exact le_of_not_lt hxa
    refine ⟨?_, ?_⟩
    · rcases List.mem_cons.1 hmem with h | h
      · rw [h]
        by_cases hxa : x < a <;> simp [hxa]
      · exact List.mem_cons_of_mem _ (List.mem_cons_of_mem _ h)
    · intro y hy
      have hhead := hle _ (List.mem_cons_self _ _)
      rcases List.mem_cons.1 hy with h | h
      · rw [h]; exact le_trans hhead hstep.1
      · rcases List.mem_cons.1 h with h2 | h2
        · rw [h2]; exact le_trans hhead hstep.2
        · exact hle _ (List.mem_cons_of_mem _ h2)

/-- The fold of the variadic `max` case computes a member of the
argument list that is an upper bound of it. -/
theorem foldMinMax_max_spec {α : Type} [LinearOrder α] (a : α) (l : List α) :
    foldMinMax false a l ∈ a :: l ∧ ∀ x ∈ a :: l, x ≤ foldMinMax false a l := by
  induction l generalizing a with
  | nil =>
    refine ⟨List.mem_singleton_self a, ?_⟩
    intro x hx
    rw [List.mem_singleton.1 hx]
    exact le_refl _
  | cons x l ih =>
    obtain ⟨hmem, hle⟩ := ih (if x > a then x else a)
    have heq : foldMinMax false a (x :: l) = foldMinMax false (if x > a then x else a) l := rfl
    rw [heq]
    have hstep : a ≤ (if x > a then x else a) ∧ x ≤ (if x > a then x else a) := by
      by_cases hxa : x > a <;> simp [hxa]
      · exact le_of_lt hxa
      · exact le_of_not_lt hxa
    refine ⟨?_, ?_⟩
    · rcases List.mem_cons.1 hmem with h | h
      · rw [h]
        by_cases hxa : x > a <;> simp [hxa]
      · exact List.mem_cons_of_mem _ (List.mem_cons_of_mem _ h)
    · intro y hy
      have hhead := hle _ (List.mem_cons_self _ _)
      rcases List.mem_cons.1 hy with h | h
      · rw [h]; exact le_trans hstep.1 hhead
      · rcases List.mem_cons.1 h with h2 | h2
        · rw [h2]; exact le_trans hstep.2 hhead
        · exact hle _ (List.mem_cons_of_mem _ h2)

/-- C4: processing the right parenthesis of a call emits the Function
token with arity = commas seen + 1, except arity 0 when the right paren
immediately follows the matching left paren; the float evaluator pops
exactly that many arguments for the variadic `min`/`max` and folds them
to the minimum/maximum, failing with a wrong-arity error for arity < 2;
so `"min(5,2,7,3)"` = 2.  (The comma counter `c` is the head of the
state's `argCount` stack; the matching left paren with the Function
token below it sit on top of the operator stack.) -/
theorem C4_arity_resolution :
    (∀ (out stack : List Token) (fps : List Bool) (acs : List Nat) (c : Nat)
        (la : Option Token) (p fn lp : Token),
      lp.Typ = .TLParen → fn.Typ = .TFunc → p.Typ ≠ .TLParen →
      toRPNStep { Typ := .TRParen, Text := ")" } la (some p)
          ⟨out, lp :: fn :: stack, true :: fps, c :: acs⟩ =
        .ok ⟨out ++ [{ fn with Arity := c + 1 }], stack, fps, acs⟩) ∧
    (∀ (out stack : List Token) (fps : List Bool) (acs : List Nat) (c : Nat)
        (la : Option Token) (p fn lp : Token),
      lp.Typ = .TLParen → fn.Typ = .TFunc → p.Typ = .TLParen →
      toRPNStep { Typ := .TRParen, Text := ")" } la (some p)
          ⟨out, lp :: fn :: stack, true :: fps, c :: acs⟩ =
        .ok ⟨out ++ [{ fn with Arity := 0 }], stack, fps, acs⟩) ∧
    (∀ (name : String) (n : Nat) (st : List ℚ),
      name = "min" ∨ name = "max" → n < 2 →
      evalStep { Typ := .TFunc, Text := name, Arity := n } st =
        .error (.wrongArity name)) ∧
    (∀ (name : String) (n : Nat) (st : List ℚ),
      name = "min" ∨ name = "max" → 2 ≤ n → n ≤ st.length →
      ∃ r, evalStep { Typ := .TFunc, Text := name, Arity := n } st =
          .ok (r :: st.drop n) ∧
        r ∈ st.take n ∧
        ∀ x ∈ st.take n, (name = "min" → r ≤ x) ∧ (name = "max" → x ≤ r)) ∧
    EvalExpression ("min(5,2,7,3)") = .ok 2 := by
  refine ⟨?_, ?_, ?_, ?_, by with_unfolding_all decide⟩
  · intro out stack fps acs c la p fn lp hlp hfn hp
    simp [toRPNStep, popToParenDrop, hlp, hfn, hp]
  · intro out stack fps acs c la p fn lp hlp hfn hp
    simp [toRPNStep, popToParenDrop, hlp, hfn, hp]
  · intro name n st hname h2
    rcases hname with h | h <;> subst h
    · have hstep : evalStep { Typ := .TFunc, Text := "min", Arity := n } st =
          if n < 2 then .error (.wrongArity ("min"))
          else if st.length < n then .error .notEnoughOperands
          else match (st.take n).reverse with
            | a :: rest => .ok (foldMinMax true a rest :: st.drop n)
            | [] => .error .notEnoughOperands := rfl
      rw [hstep, if_pos h2]
    · have hstep : evalStep { Typ := .TFunc, Text := "max", Arity := n } st =
          if n < 2 then .error (.wrongArity ("max"))
          else if st.length < n then .error .notEnoughOperands
          else match (st.take n).reverse with
            | a :: rest => .ok (foldMinMax false a rest :: st.drop n)
            | [] => .error .notEnoughOperands := rfl
      rw [hstep, if_pos h2]
  · intro name n st hname h2 hlen
    have h2' : ¬ n < 2 := not_lt.2 h2
    have hnl : ¬ st.length < n := not_lt.2 hlen
    have htake : (st.take n).length = n := by
      rw [List.length_take]
      omega
    have hne : (st.take n).reverse ≠ [] := by
      intro h
      have := congrArg List.length h
      simp [htake] at this
      omega
    obtain ⟨a, rest, hrev⟩ := List.exists_cons_of_ne_nil hne
    rcases hname with h | h <;> subst h
    · have hstep : evalStep { Typ := .TFunc, Text := "min", Arity := n } st =
          if n < 2 then .error (.wrongArity ("min"))
          else if st.length < n then .error .notEnoughOperands
          else match (st.take n).reverse with
            | a :: rest => .ok (foldMinMax true a rest :: st.drop n)
            | [] => .error .notEnoughOperands := rfl
      refine ⟨foldMinMax true a rest, ?_, ?_, ?_⟩
      · rw [hstep, if_neg h2', if_neg hnl, hrev]
      · have := (foldMinMax_min_spec a rest).1
        rw [← hrev] at this
        exact List.mem_reverse.1 this
      · intro x hx
        have hb := (foldMinMax_min_spec a rest).2 x (by
          rw [← hrev]
          exact List.mem_reverse.2 hx)
        exact ⟨fun _ => hb, fun hmax => absurd hmax (by decide)⟩
    · have hstep : evalStep { Typ := .TFunc, Text := "max", Arity := n } st =
          if n < 2 then .error (.wrongArity ("max"))
          else if st.length < n then .error .notEnoughOperands
          else match (st.take n).reverse with
            | a :: rest => .ok (foldMinMax false a rest :: st.drop n)
            | [] => .error .notEnoughOperands := rfl
      refine ⟨foldMinMax false a rest, ?_, ?_, ?_⟩
      · rw [hstep, if_neg h2', if_neg hnl, hrev]
      · have := (foldMinMax_max_spec a rest).1
        rw [← hrev] at this
        exact List.mem_reverse.1 this
      · intro x hx
        have hb := (foldMinMax_max_spec a rest).2 x (by
          rw [← hrev]
          exact List.mem_reverse.2 hx)
        exact ⟨fun hmin => absurd hmin (by decide), fun _ => hb⟩

/-- Witness for C4: the call frame of `"min(5,2,7,3)"` (three commas
counted, stack top `( min ...`) resolves to arity 4, and the evaluator
folds a 4-argument `min` over the stack `[3, 7, 2, 5]` (top first). -/
theorem C4_arity_resolution_witness :
    toRPNStep { Typ := .TRParen, Text := ")" } none
        (some { Typ := .TNumber, Text := "3", Value := 3 })
        ⟨[], [{ Typ := .TLParen, Text := "(" }, { Typ := .TFunc, Text := "min" }],
          [true], [3]⟩ =
      .ok ⟨[] ++ [{ Typ := .TFunc, Text := "min", Arity := 3 + 1 }], [], [], []⟩ ∧
    (∃ r, evalStep { Typ := .TFunc, Text := "min", Arity := 4 } [(3 : ℚ), 7, 2, 5] =
        .ok (r :: ([(3 : ℚ), 7, 2, 5].drop 4)) ∧
      r ∈ [(3 : ℚ), 7, 2, 5].take 4 ∧
      ∀ x ∈ [(3 : ℚ), 7, 2, 5].take 4,
        (("min" : String) = "min" → r ≤ x) ∧ (("min" : String) = "max" → x ≤ r)) := by
  constructor
  · have h := C4_arity_resolution.1 [] []
      [] [] 3 none { Typ := .TNumber, Text := "3", Value := 3 }
      { Typ := .TFunc, Text := "min" } { Typ := .TLParen, Text := "(" }
      rfl rfl (by decide)
    exact h
  · exact C4_arity_resolution.2.2.2.1 ("min") 4 [(3 : ℚ), 7, 2, 5]
      (Or.inl rfl) (by decide) (by decide)

/-- The money evaluator's operator dispatch sends `^` to its default
branch: "operator not supported", whatever the stack. -/
theorem moneyStep_caret (t : Token) (st : List ℤ) (h1 : t.Typ = .TOp)
    (h2 : t.Text = "^") : moneyStep t st = .error (.unsupportedOperator ("^")) := by
  obtain ⟨ty, tx, v, ar⟩ := t
  simp only at h1 h2
  subst h1
  subst h2
  rfl

/-- An RPN sequence containing a `^` operator token never evaluates to a
money value: the fold either fails earlier or fails at the `^`. -/
theorem moneyLoop_caret_fails :
    ∀ (rpn : List Token) (st : List ℤ),
      (∃ t ∈ rpn, t.Typ = .TOp ∧ t.Text = "^") →
      ∃ e, moneyLoop rpn st = .error e := by
  intro rpn
  induction rpn with
  | nil =>
    intro st h
    obtain ⟨t, ht, _⟩ := h
    exact absurd ht (List.not_mem_nil t)
  | cons t ts ih =>
    intro st h
    obtain ⟨u, hu, hTyp, hText⟩ := h
    rcases List.mem_cons.1 hu with h | h
    · subst h
      exact ⟨.unsupportedOperator ("^"),
        by simp [moneyLoop, moneyStep_caret u st hTyp hText]⟩
    · cases hstep : moneyStep t st with
      | error e => exact ⟨e, by simp [moneyLoop, hstep]⟩
      | ok st2 =>
        obtain ⟨e, he⟩ := ih st2 ⟨u, h, hTyp, hText⟩
        exact ⟨e, by simp [moneyLoop, hstep, he]⟩

/-- C10 (amended): the shared lexer and parser accept the `^` operator
(`isOpByte` accepts it and `"2^3"` parses to RPN), every `^` operator
token hits the money evaluator's operator-not-supported branch whatever
the stack, and an RPN form containing `^` therefore never yields a money
result — the run fails with the operator-not-supported error when
evaluation reaches the `^` without an earlier failure, as on `"2^3"`
(an earlier token may fail first with a different error, as on
`"pi^2"`). -/
theorem C10_money_rejects_caret :
    (∀ (t : Token) (st : List ℤ), t.Typ = .TOp → t.Text = "^" →
      moneyStep t st = .error (.unsupportedOperator ("^"))) ∧
    (∀ (rpn : List Token) (st : List ℤ),
      (∃ t ∈ rpn, t.Typ = .TOp ∧ t.Text = "^") →
      ∃ e, moneyLoop rpn st = .error e) ∧
    EvalMoneyExpression ("2^3") = .error (.unsupportedOperator ("^")) ∧
    isOpByte ('^') = true ∧
    (match rpnOf ("2^3") with
      | .ok rpn => rpn.any (fun t => t.Typ == .TOp && t.Text == "^")
      | .error _ => false) = true := by
  refine ⟨moneyStep_caret, moneyLoop_caret_fails, ?_, rfl, ?_⟩
  · with_unfolding_all decide
  · with_unfolding_all decide

/-- Witness for C10: a one-token RPN holding the `^` operator fails. -/
theorem C10_money_rejects_caret_witness :
    ∃ e, moneyLoop [{ Typ := .TOp, Text := "^" }] [] = .error e :=
  C10_money_rejects_caret.2.1 [{ Typ := .TOp, Text := "^" }] []
    ⟨{ Typ := .TOp, Text := "^" }, List.mem_cons_self _ _, rfl, rfl⟩

/-- Counterexample to C10 as stated: `"pi^2"` has a `^` in its RPN form,
yet `EvalMoneyExpression` fails with the non-numeric-literal error for
`"pi"` (hit first), not with operator-not-supported. -/
theorem C10_counterexample :
    (match rpnOf ("pi^2") with
      | .ok rpn => rpn.any (fun t => t.Typ == .TOp && t.Text == "^")
      | .error _ => false) = true ∧
    EvalMoneyExpression ("pi^2") = .error (.nonNumericLiteral ("pi")) ∧
    Err.nonNumericLiteral ("pi") ≠ Err.unsupportedOperator ("^") := by
  refine ⟨by with_unfolding_all decide, by with_unfolding_all decide, by decide⟩

/-- The byte values an identifier-start character can have. -/
theorem identStart_toNat {c : Char} (h : isIdentStart c = true) :
    (97 ≤ c.toNat ∧ c.toNat ≤ 122) ∨ (65 ≤ c.toNat ∧ c.toNat ≤ 90) ∨ c.toNat = 95 := by
  simp [isIdentStart, Char.le_def, UInt32.le_def, BitVec.le_def] at h
  rcases h with (⟨h1, h2⟩ | ⟨h1, h2⟩) | h
  · exact Or.inl ⟨h1, h2⟩
  · exact Or.inr (Or.inl ⟨h1, h2⟩)
  · subst h
    exact Or.inr (Or.inr rfl)

/-- An identifier-start character differs from any non-identifier
character. -/
theorem ne_of_identStart {c k : Char} (h : isIdentStart c = true)
    (hk : isIdentStart k = false) : (c == k) = false := by
  rw [beq_eq_false_iff_ne]
  intro he
  rw [he, hk] at h
  cases h

/-- An identifier-start character is not whitespace. -/
theorem identStart_not_space {c : Char} (h : isIdentStart c = true) :
    isSpaceB c = false := by
  have hn := identStart_toNat h
  rw [Bool.eq_false_iff]
  intro hs
  simp [isSpaceB, or_assoc] at hs
  rcases hs with h1 | h1 | h1 | h1 | h1 | h1 | h1 | h1
  · subst h1; revert hn; decide
  · subst h1; revert hn; decide
  · subst h1; revert hn; decide
  · rcases hn with ⟨a, b⟩ | ⟨a, b⟩ | a <;> omega
  · rcases hn with ⟨a, b⟩ | ⟨a, b⟩ | a <;> omega
  · subst h1; revert hn; decide
  · rcases hn with ⟨a, b⟩ | ⟨a, b⟩ | a <;> omega
  · rcases hn with ⟨a, b⟩ | ⟨a, b⟩ | a <;> omega

/-- An identifier-start character is not an operator byte. -/
theorem identStart_not_op {c : Char} (h : isIdentStart c = true) :
    isOpByte c = false := by
  simp [isOpByte, ne_of_identStart h (show isIdentStart '+' = false by decide),
    ne_of_identStart h (show isIdentStart '-' = false by decide),
    ne_of_identStart h (show isIdentStart '*' = false by decide),
    ne_of_identStart h (show isIdentStart '/' = false by decide),
    ne_of_identStart h (show isIdentStart '^' = false by decide),
    ne_of_identStart h (show isIdentStart '%' = false by decide)]

/-- The lexer on a string that is one identifier: the whole text is
grouped, case-folded, looked up in the constant table, and emitted as a
single Number (constant hit) or Function token whose `Text` is the
folded text. -/
theorem tokenize_single_ident (c : Char) (cs : List Char)
    (hstart : isIdentStart c = true)
    (hcont : ∀ x ∈ cs, isIdentContinue x = true) :
    tokenize (String.mk (c :: cs)) =
      .ok [match constants (String.mk ((c :: cs).map charToLower)) with
        | some v =>
          { Typ := .TNumber, Text := String.mk ((c :: cs).map charToLower), Value := v }
        | none => { Typ := .TFunc, Text := String.mk ((c :: cs).map charToLower) }] := by
  show tokenizeAux (cs.length + 1 + 1) (c :: cs) = _
  rw [tokenizeAux]
  rw [identStart_not_space hstart,
    ne_of_identStart hstart (show isIdentStart ',' = false by decide),
    ne_of_identStart hstart (show isIdentStart '(' = false by decide),
    ne_of_identStart hstart (show isIdentStart ')' = false by decide),
    identStart_not_op hstart, hstart]
  simp only [Bool.false_eq_true, if_false, if_true]
  rw [List.takeWhile_eq_self_iff.2 hcont, List.dropWhile_eq_nil_iff.2 hcont]
  rfl

/-- C9 (amended): for every identifier whose case-folded form matches an
entry of the constant table, the lexer emits a Number token carrying
that constant's value and whose `Text` field is the case-folded (not
the original) source text; so `"PI"`, `"Pi"` and `"pi"` all lex to the
one token with `Text` `"pi"` and value `math.Pi`. -/
theorem C9_constant_tokens :
    (∀ (c : Char) (cs : List Char) (v : ℚ),
      isIdentStart c = true →
      (∀ x ∈ cs, isIdentContinue x = true) →
      constants (String.mk ((c :: cs).map charToLower)) = some v →
      tokenize (String.mk (c :: cs)) =
        .ok [{ Typ := .TNumber, Text := String.mk ((c :: cs).map charToLower),
               Value := v }]) ∧
    tokenize ("PI") = .ok [{ Typ := .TNumber, Text := "pi", Value := piF64 }] ∧
    tokenize ("Pi") = .ok [{ Typ := .TNumber, Text := "pi", Value := piF64 }] ∧
    tokenize ("pi") = .ok [{ Typ := .TNumber, Text := "pi", Value := piF64 }] ∧
    tokenize ("E") = .ok [{ Typ := .TNumber, Text := "e", Value := eF64 }] := by
  refine ⟨?_, ?_, ?_, ?_, ?_⟩
  · intro c cs v hstart hcont hconst
    rw [tokenize_single_ident c cs hstart hcont, hconst]
  · decide!
  · decide!
  · decide!
  · decide!

/-- Witness for C9: the identifier `"PI"` lexes to the single Number
token with folded text `"pi"` and the value of `math.Pi`. -/
theorem C9_constant_tokens_witness :
    tokenize (String.mk ['P', 'I']) =
      .ok [{ Typ := .TNumber, Text := String.mk (['P', 'I'].map charToLower),
             Value := piF64 }] :=
  C9_constant_tokens.1 'P' ['I'] piF64 (by decide) (by decide) (by decide!)

/-- `wrap64` is the identity on the signed 64-bit range. -/
theorem wrap64_eq {z : ℤ} (h1 : -9223372036854775808 ≤ z)
    (h2 : z ≤ 9223372036854775807) : wrap64 z = z := by
  unfold wrap64
  norm_num
  omega

/-- `addInt64` returns the exact sum when it fits in 64 bits and the
overflow error otherwise. -/
theorem addInt64_spec (a b : ℤ) (ha : in64 a) (hb : in64 b) :
    addInt64 a b = if in64 (a + b) then .ok (a + b) else .error .overflowAdd := by
  unfold addInt64
  simp only [in64, int64Min, int64Max] at *
  norm_num at *
  split_ifs <;> first
    | rfl
    | (exfalso; omega)
    | (congr 1; apply wrap64_eq <;> omega)

/-- `subInt64` returns the exact difference when it fits in 64 bits and
the overflow error otherwise. -/
theorem subInt64_spec (a b : ℤ) (ha : in64 a) (hb : in64 b) :
    subInt64 a b = if in64 (a - b) then .ok (a - b) else .error .overflowSub := by
  unfold subInt64
  simp only [in64, int64Min, int64Max] at *
  norm_num at *
  split_ifs <;> first
    | rfl
    | (exfalso; omega)
    | (congr 1; apply wrap64_eq <;> omega)


/-- `mulInt64` returns the exact product when it fits in 64 bits and the
overflow error otherwise. -/
theorem mulInt64_spec (a b : ℤ) (ha : in64 a) (hb : in64 b) :
    mulInt64 a b = if in64 (a * b) then .ok (a * b) else .error .overflowMul := by
  by_cases hz : a = 0 ∨ b = 0
  · have hab : a * b = 0 := by rcases hz with h | h <;> simp [h]
    unfold mulInt64
    rw [if_pos hz, hab, if_pos (show in64 (0 : ℤ) by decide)]
  · push_neg at hz
    obtain ⟨ha0, hb0⟩ := hz
    unfold mulInt64
    rw [if_neg (by push_neg; exact ⟨ha0, hb0⟩)]
    dsimp only
    generalize hP : a.natAbs * b.natAbs = P
    have habs : (a * b).natAbs = P := by rw [← hP]; exact Int.natAbs_mul a b
    have p64 : (2 : ℕ) ^ 64 = 18446744073709551616 := by norm_num
    have p63 : (2 : ℕ) ^ 63 = 9223372036854775808 := by norm_num
    have z63 : (2 : ℤ) ^ 63 = 9223372036854775808 := by norm_num
    simp only [in64, int64Min, int64Max, p64, p63, z63] at ha hb ⊢
    have hsign : ((a < 0 ∧ b < 0) ∨ (0 < a ∧ 0 < b)) ∨ ((a < 0 ∧ 0 < b) ∨ (0 < a ∧ b < 0)) := by
      omega
    rcases hsign with hs | hs
    · have hpos : 0 < a * b := by
        rcases hs with ⟨h1, h2⟩ | ⟨h1, h2⟩
        · exact mul_pos_of_neg_of_neg h1 h2
        · exact mul_pos h1 h2
      have hiff : (a < 0 ↔ b < 0) := by omega
      rw [if_pos (decide_eq_decide.mpr hiff)]
      generalize hab : a * b = ab at hpos habs ⊢
      have hPab : (P : ℤ) = ab := by omega
      split_ifs with h1 h2 h3 <;> first
        | rfl
        | (exfalso; omega)
        | (congr 1; omega)
    · have hneg : a * b < 0 := by
        rcases hs with ⟨h1, h2⟩ | ⟨h1, h2⟩
        · exact mul_neg_of_neg_of_pos h1 h2
        · exact mul_neg_of_pos_of_neg h1 h2
      have hiff : ¬ (a < 0 ↔ b < 0) := by omega
      rw [if_neg (fun h => hiff (decide_eq_decide.mp h))]
      generalize hab : a * b = ab at hneg habs ⊢
      have hPab : (P : ℤ) = -ab := by omega
      split_ifs with h1 h2 h3 h4 <;> first
        | rfl
        | (exfalso; omega)
        | (congr 1; omega)

/-- C6: money-mode integer arithmetic detects overflow instead of
wrapping: addition, subtraction and the 128-bit-checked multiplication
return the exact result when it lies in the signed 64-bit range and an
Overflow error otherwise, and both `NEG` and `abs` fail with their
overflow errors on the minimum representable 64-bit integer. -/
theorem C6_overflow_checked :
    (∀ a b : ℤ, in64 a → in64 b →
      addInt64 a b = if in64 (a + b) then .ok (a + b) else .error .overflowAdd) ∧
    (∀ a b : ℤ, in64 a → in64 b →
      subInt64 a b = if in64 (a - b) then .ok (a - b) else .error .overflowSub) ∧
    (∀ a b : ℤ, in64 a → in64 b →
      mulInt64 a b = if in64 (a * b) then .ok (a * b) else .error .overflowMul) ∧
    (∀ st : List ℤ, moneyStep { Typ := .TOp, Text := "NEG" } (int64Min :: st) =
      .error .overflowNeg) ∧
    (∀ st : List ℤ, moneyStep { Typ := .TFunc, Text := "abs", Arity := 1 }
      (int64Min :: st) = .error .overflowAbs) := by
  refine ⟨addInt64_spec, subInt64_spec, mulInt64_spec, fun st => ?_, fun st => ?_⟩
  · rfl
  · rfl

/-- Witness for C6: `2^62 + 2^62` overflows while `3 * 5` is exact. -/
theorem C6_overflow_checked_witness :
    (addInt64 4611686018427387904 4611686018427387904 =
      if in64 (4611686018427387904 + 4611686018427387904)
      then .ok (4611686018427387904 + 4611686018427387904)
      else .error .overflowAdd) ∧
    (mulInt64 3 5 = if in64 (3 * 5) then .ok (3 * 5) else .error .overflowMul) := by
  constructor
  · exact C6_overflow_checked.1 4611686018427387904 4611686018427387904
      (by decide) (by decide)
  · exact C6_overflow_checked.2.2.1 3 5 (by decide) (by decide)

/-- The byte values of a decimal digit character. -/
theorem digit_toNat {c : Char} (h : isDigitB c = true) :
    48 ≤ c.toNat ∧ c.toNat ≤ 57 := by
  simp [isDigitB, Char.le_def, UInt32.le_def, BitVec.le_def] at h
  exact ⟨h.1, h.2⟩

/-- A digit character differs from any non-digit character. -/
theorem ne_of_digitB {c k : Char} (h : isDigitB c = true)
    (hk : isDigitB k = false) : (c == k) = false := by
  rw [beq_eq_false_iff_ne]
  intro he
  rw [he, hk] at h
  cases h

/-- The digit fold from an arbitrary accumulator. -/
theorem natOfDigits_go (l : List Char) (n : ℕ) :
    l.foldl (fun n c => n * 10 + (c.toNat - 48)) n = n * 10 ^ l.length + natOfDigits l := by
  induction l generalizing n with
  | nil => simp [natOfDigits]
  | cons c l ih =>
    simp only [List.foldl_cons, natOfDigits, List.length_cons]
    rw [ih (n * 10 + (c.toNat - 48)), ih (0 * 10 + (c.toNat - 48))]
    ring
/-- A digit string of length n has value below 10^n. -/
theorem natOfDigits_lt (l : List Char) (h : ∀ c ∈ l, isDigitB c = true) :
    natOfDigits l < 10 ^ l.length := by
  induction l with
  | nil => simp [natOfDigits]
  | cons c l ih =>
    have hd : c.toNat - 48 ≤ 9 := by
      have := digit_toNat (h c (List.mem_cons_self _ _))
      omega
    have hl := ih (fun x hx => h x (List.mem_cons_of_mem _ hx))
    have hgo : natOfDigits (c :: l) =
        (c.toNat - 48) * 10 ^ l.length + natOfDigits l := by
      show List.foldl _ _ (c :: l) = _
      rw [List.foldl_cons, natOfDigits_go]
      simp
    rw [hgo, List.length_cons]
    calc (c.toNat - 48) * 10 ^ l.length + natOfDigits l
        < (c.toNat - 48) * 10 ^ l.length + 10 ^ l.length := by omega
      _ = (c.toNat - 48 + 1) * 10 ^ l.length := by ring
      _ ≤ 10 * 10 ^ l.length := Nat.mul_le_mul_right _ (by omega)
      _ = 10 ^ (l.length + 1) := by ring

/-- Appending a zero digit multiplies the value by ten. -/
theorem natOfDigits_append_zero (l : List Char) :
    natOfDigits (l ++ ['0']) = natOfDigits l * 10 := by
  show List.foldl _ _ _ = _
  rw [List.foldl_append]
  show List.foldl _ _ ['0'] = _
  simp [List.foldl_cons, natOfDigits]
/-- `parseCents` on a literal `I.F` with digit lists `I` and `F`,
`F` at most 2 digits: the value is `I`-value times 100 plus the
right-padded `F`-value, with the `strconv.ParseInt` range check, the
scaling multiplication and the final addition each overflow-checked in
order. -/
theorem parseCents_dot (I F : List Char)
    (hI : ∀ c ∈ I, isDigitB c = true) (hF : ∀ c ∈ F, isDigitB c = true)
    (hIne : I ≠ []) (hFlen : F.length ≤ 2) :
    parseCents (String.mk (I ++ '.' :: F)) =
      if in64 (natOfDigits I : ℤ) then
        if in64 ((natOfDigits I : ℤ) * 100) then
          if in64 ((natOfDigits I : ℤ) * 100 + (natOfDigits F * 10 ^ (2 - F.length) : ℕ)) then
            .ok ((natOfDigits I : ℤ) * 100 + (natOfDigits F * 10 ^ (2 - F.length) : ℕ))
          else .error .overflowAdd
        else .error (.moneyValueOverflow (String.mk (I ++ '.' :: F)))
      else .error (.invalidMoneyNumber (String.mk (I ++ '.' :: F))) := by
  have hNoDotI : ∀ c ∈ I, (!(c == '.')) = true := by
    intro c hc
    rw [ne_of_digitB (hI c hc) (by decide)]
    rfl
  have hE : (I ++ '.' :: F).any (fun c => c == 'e' || c == 'E') = false := by
    rw [List.any_eq_false]
    intro c hc
    rcases List.mem_append.1 hc with h | h
    · simp [ne_of_digitB (hI c h) (show isDigitB 'e' = false by decide),
        ne_of_digitB (hI c h) (show isDigitB 'E' = false by decide)]
    · rcases List.mem_cons.1 h with h | h
      · subst h; decide
      · simp [ne_of_digitB (hF c h) (show isDigitB 'e' = false by decide),
          ne_of_digitB (hF c h) (show isDigitB 'E' = false by decide)]
  have hCI : I.countP (fun c => c == '.') = 0 := by
    rw [List.countP_eq_zero]
    intro c hc
    simp [ne_of_digitB (hI c hc) (show isDigitB '.' = false by decide)]
  have hCF : F.countP (fun c => c == '.') = 0 := by
    rw [List.countP_eq_zero]
    intro c hc
    simp [ne_of_digitB (hF c hc) (show isDigitB '.' = false by decide)]
  have hC : (I ++ '.' :: F).countP (fun c => c == '.') = 1 := by
    rw [List.countP_append, List.countP_cons, hCI, hCF]
    decide
  have hTake : (I ++ '.' :: F).takeWhile (fun c => !(c == '.')) = I := by
    rw [List.takeWhile_append_of_pos hNoDotI]
    simp [List.takeWhile]
  have hDrop : (I ++ '.' :: F).dropWhile (fun c => !(c == '.')) = '.' :: F := by
    rw [List.dropWhile_append_of_pos hNoDotI]
    simp [List.dropWhile]
  have hIempty : I.isEmpty = false := by
    cases I with
    | nil => exact absurd rfl hIne
    | cons a l => rfl
  have hne2 : (I ++ '.' :: F).isEmpty = false := by cases I <;> rfl
  have hallI : I.all isDigitB = true := List.all_eq_true.2 hI
  have hFPd : ∀ c ∈ (if F.isEmpty = true then ['0'] else F), isDigitB c = true := by
    cases F with
    | nil => intro c hc; simp at hc; subst hc; decide
    | cons c1 F1 => exact hF
  have hFPlen : 1 ≤ (if F.isEmpty = true then ['0'] else F).length ∧
      (if F.isEmpty = true then ['0'] else F).length ≤ 2 := by
    cases F with
    | nil => decide
    | cons c1 F1 =>
      refine ⟨by simp, ?_⟩
      simpa using hFlen
  have hFPpad : natOfDigits (padTo2 (if F.isEmpty = true then ['0'] else F)) =
      natOfDigits F * 10 ^ (2 - F.length) := by
    cases F with
    | nil => decide
    | cons c1 F1 =>
      cases F1 with
      | nil =>
        show natOfDigits (padTo2 [c1]) = natOfDigits [c1] * 10 ^ 1
        have hp : padTo2 [c1] = [c1] ++ ['0'] := rfl
        rw [hp, natOfDigits_append_zero]
        norm_num
      | cons c2 F2 =>
        cases F2 with
        | nil =>
          show natOfDigits (padTo2 [c1, c2]) = natOfDigits [c1, c2] * 10 ^ 0
          have hp : padTo2 [c1, c2] = [c1, c2] := rfl
          rw [hp]
          norm_num
        | cons c3 F3 =>
          exact absurd hFlen (by simp only [List.length_cons]; omega)
  have hFPdigits : ∀ c ∈ padTo2 (if F.isEmpty = true then ['0'] else F),
      isDigitB c = true := by
    intro c hc
    rcases List.mem_append.1 hc with h | h
    · exact hFPd c h
    · rw [List.eq_of_mem_replicate h]
      decide
  have hFPlen2 : (padTo2 (if F.isEmpty = true then ['0'] else F)).length = 2 := by
    simp only [padTo2, List.length_append, List.length_replicate]
    omega
  have hFPbound : natOfDigits (padTo2 (if F.isEmpty = true then ['0'] else F)) < 100 := by
    have := natOfDigits_lt _ hFPdigits
    rw [hFPlen2] at this
    exact lt_of_lt_of_le this (by norm_num)
  have hADI : allDigits I = true := by
    simp [allDigits, hIempty, hallI]
  have hADF : allDigits (if F.isEmpty = true then ['0'] else F) = true := by
    simp only [allDigits, Bool.and_eq_true, Bool.not_eq_true']
    constructor
    · cases F with
      | nil => rfl
      | cons c1 F1 => rfl
    · exact List.all_eq_true.2 hFPd
  unfold parseCents splitFirst
  dsimp only
  rw [hE, hC, hTake, hDrop]
  simp only [hne2, hIempty, Bool.false_eq_true, if_false, Option.getD_some]
  rw [if_neg (by decide : ¬ (1 : ℕ) < 1)]
  rw [hADI, hADF]
  simp only [Bool.and_self, Bool.not_true, Bool.false_eq_true, if_false]
  rw [if_neg (by omega : ¬ 2 < (if F.isEmpty = true then ['0'] else F).length)]
  have z63 : (2 : ℤ) ^ 63 = 9223372036854775808 := by norm_num
  have hFrNeg : ¬ int64Max <
      ((natOfDigits (padTo2 (if F.isEmpty = true then ['0'] else F)) : ℕ) : ℤ) := by
    simp only [int64Max, z63]
    omega
  have hFr64 : in64 ((natOfDigits (padTo2 (if F.isEmpty = true then ['0'] else F)) : ℕ) : ℤ) := by
    simp only [in64, int64Min, int64Max, z63]
    omega
  rw [if_neg hFrNeg]
  rw [hFPpad] at hFr64 ⊢
  by_cases hw : in64 (natOfDigits I : ℤ)
  · rw [if_neg (by simp only [in64, int64Min, int64Max, z63] at hw ⊢; omega), if_pos hw]
    rw [mulInt64_spec _ _ hw (by decide)]
    by_cases hm : in64 ((natOfDigits I : ℤ) * moneyScale)
    · rw [if_pos hm]
      simp only [moneyScale] at hm ⊢
      rw [if_pos hm]
      rw [addInt64_spec _ _ hm hFr64]
    · rw [if_neg hm]
      simp only [moneyScale] at hm
      rw [if_neg hm]
  · rw [if_pos (by simp only [in64, int64Min, int64Max, z63] at hw ⊢; omega), if_neg hw]

/-- `parseCents` on a dotless digit literal: the value times 100, with
range and scaling checks. -/
theorem parseCents_nodot (I : List Char)
    (hI : ∀ c ∈ I, isDigitB c = true) (hIne : I ≠ []) :
    parseCents (String.mk I) =
      if in64 (natOfDigits I : ℤ) then
        if in64 ((natOfDigits I : ℤ) * 100) then
          .ok ((natOfDigits I : ℤ) * 100)
        else .error (.moneyValueOverflow (String.mk I))
      else .error (.invalidMoneyNumber (String.mk I)) := by
  have hNoDotI : ∀ c ∈ I, (!(c == '.')) = true := by
    intro c hc
    rw [ne_of_digitB (hI c hc) (by decide)]
    rfl
  have hE : I.any (fun c => c == 'e' || c == 'E') = false := by
    rw [List.any_eq_false]
    intro c hc
    simp [ne_of_digitB (hI c hc) (show isDigitB 'e' = false by decide),
      ne_of_digitB (hI c hc) (show isDigitB 'E' = false by decide)]
  have hC : I.countP (fun c => c == '.') = 0 := by
    rw [List.countP_eq_zero]
    intro c hc
    simp [ne_of_digitB (hI c hc) (show isDigitB '.' = false by decide)]
  have hTake : I.takeWhile (fun c => !(c == '.')) = I :=
    List.takeWhile_eq_self_iff.2 hNoDotI
  have hDrop : I.dropWhile (fun c => !(c == '.')) = [] :=
    List.dropWhile_eq_nil_iff.2 hNoDotI
  have hIempty : I.isEmpty = false := by
    cases I with
    | nil => exact absurd rfl hIne
    | cons a l => rfl
  have hallI : I.all isDigitB = true := List.all_eq_true.2 hI
  have hADI : allDigits I = true := by
    simp [allDigits, hIempty, hallI]
  unfold parseCents splitFirst
  dsimp only
  rw [hE, hC, hTake, hDrop]
  simp only [hIempty, Bool.false_eq_true, if_false, Option.getD_none]
  rw [if_neg (by decide : ¬ (0 : ℕ) > 1)]
  rw [hADI]
  simp only [List.isEmpty_nil, if_true]
  rw [show allDigits ['0'] = true from rfl]
  simp only [Bool.and_self, Bool.not_true, Bool.false_eq_true, if_false]
  rw [if_neg (by decide : ¬ (2 : ℕ) < (['0'] : List Char).length)]
  have z63 : (2 : ℤ) ^ 63 = 9223372036854775808 := by norm_num
  rw [if_neg (show ¬ int64Max < ((natOfDigits (padTo2 ['0']) : ℕ) : ℤ) by decide)]
  by_cases hw : in64 (natOfDigits I : ℤ)
  · rw [if_neg (by simp only [in64, int64Min, int64Max, z63] at hw ⊢; omega), if_pos hw]
    rw [mulInt64_spec _ _ hw (by decide)]
    by_cases hm : in64 ((natOfDigits I : ℤ) * moneyScale)
    · rw [if_pos hm]
      simp only [moneyScale] at hm ⊢
      rw [if_pos hm]
      rw [addInt64_spec _ _ hm (show in64 ((natOfDigits (padTo2 ['0']) : ℕ) : ℤ) by decide)]
      rw [show ((natOfDigits (padTo2 ['0']) : ℕ) : ℤ) = 0 from rfl, add_zero]
      rw [if_pos hm]
    · rw [if_neg hm]
      simp only [moneyScale] at hm
      rw [if_neg hm]
  · rw [if_pos (by simp only [in64, int64Min, int64Max, z63] at hw ⊢; omega), if_neg hw]

/-- `parseCents` rejects a literal with more than two fractional
digits. -/
theorem parseCents_too_many (I F : List Char)
    (hI : ∀ c ∈ I, isDigitB c = true) (hF : ∀ c ∈ F, isDigitB c = true)
    (hIne : I ≠ []) (hFlen : 2 < F.length) :
    parseCents (String.mk (I ++ '.' :: F)) =
      .error (.tooManyDecimals (String.mk (I ++ '.' :: F))) := by
  have hNoDotI : ∀ c ∈ I, (!(c == '.')) = true := by
    intro c hc
    rw [ne_of_digitB (hI c hc) (by decide)]
    rfl
  have hE : (I ++ '.' :: F).any (fun c => c == 'e' || c == 'E') = false := by
    rw [List.any_eq_false]
    intro c hc
    rcases List.mem_append.1 hc with h | h
    · simp [ne_of_digitB (hI c h) (show isDigitB 'e' = false by decide),
        ne_of_digitB (hI c h) (show isDigitB 'E' = false by decide)]
    · rcases List.mem_cons.1 h with h | h
      · subst h; decide
      · simp [ne_of_digitB (hF c h) (show isDigitB 'e' = false by decide),
          ne_of_digitB (hF c h) (show isDigitB 'E' = false by decide)]
  have hCI : I.countP (fun c => c == '.') = 0 := by
    rw [List.countP_eq_zero]
    intro c hc
    simp [ne_of_digitB (hI c hc) (show isDigitB '.' = false by decide)]
  have hCF : F.countP (fun c => c == '.') = 0 := by
    rw [List.countP_eq_zero]
    intro c hc
    simp [ne_of_digitB (hF c hc) (show isDigitB '.' = false by decide)]
  have hC : (I ++ '.' :: F).countP (fun c => c == '.') = 1 := by
    rw [List.countP_append, List.countP_cons, hCI, hCF]
    decide
  have hTake : (I ++ '.' :: F).takeWhile (fun c => !(c == '.')) = I := by
    rw [List.takeWhile_append_of_pos hNoDotI]
    simp [List.takeWhile]
  have hDrop : (I ++ '.' :: F).dropWhile (fun c => !(c == '.')) = '.' :: F := by
    rw [List.dropWhile_append_of_pos hNoDotI]
    simp [List.dropWhile]
  have hIempty : I.isEmpty = false := by
    cases I with
    | nil => exact absurd rfl hIne
    | cons a l => rfl
  have hne2 : (I ++ '.' :: F).isEmpty = false := by cases I <;> rfl
  have hallI : I.all isDigitB = true := List.all_eq_true.2 hI
  have hADI : allDigits I = true := by
    simp [allDigits, hIempty, hallI]
  have hFne : F.isEmpty = false := by
    cases F with
    | nil => exact absurd hFlen (by decide)
    | cons a l => rfl
  have hADF : allDigits F = true := by
    simp only [allDigits, hFne, Bool.not_false, Bool.true_and]
    exact List.all_eq_true.2 hF
  unfold parseCents splitFirst
  dsimp only
  rw [hE, hC, hTake, hDrop]
  simp only [hne2, hIempty, hFne, Bool.false_eq_true, if_false, Option.getD_some]
  rw [if_neg (by decide : ¬ (1 : ℕ) < 1)]
  rw [hADI, hADF]
  simp only [Bool.and_self, Bool.not_true, Bool.false_eq_true, if_false]
  rw [if_pos hFlen]

/-- C7: in money mode a Number token must be a plain decimal literal
with at most 2 fractional digits and no exponent (the constants and
exponent literals fail with the unsupported-literal error class, here
the constructors `nonNumericLiteral`/`tooManyDecimals`); an accepted
literal with whole digits `I` and fractional digits `F` parses to
`I`-value * 100 + `F`-value right-padded to 2 digits, and the scaling
is itself overflow-checked. -/
theorem C7_money_literals :
    (∀ (t : Token) (st : List ℤ), t.Typ = .TNumber → isNumericLiteral t.Text = false →
      moneyStep t st = .error (.nonNumericLiteral t.Text)) ∧
    (∀ (I F : List Char), (∀ c ∈ I, isDigitB c = true) → (∀ c ∈ F, isDigitB c = true) →
      I ≠ [] → F.length ≤ 2 →
      in64 ((natOfDigits I : ℤ) * 100 + (natOfDigits F * 10 ^ (2 - F.length) : ℕ)) →
      parseCents (String.mk (I ++ '.' :: F)) =
        .ok ((natOfDigits I : ℤ) * 100 + (natOfDigits F * 10 ^ (2 - F.length) : ℕ))) ∧
    (∀ (I : List Char), (∀ c ∈ I, isDigitB c = true) → I ≠ [] →
      in64 ((natOfDigits I : ℤ) * 100) →
      parseCents (String.mk I) = .ok ((natOfDigits I : ℤ) * 100)) ∧
    (∀ (I F : List Char), (∀ c ∈ I, isDigitB c = true) → (∀ c ∈ F, isDigitB c = true) →
      I ≠ [] → 2 < F.length →
      parseCents (String.mk (I ++ '.' :: F)) =
        .error (.tooManyDecimals (String.mk (I ++ '.' :: F)))) ∧
    (∀ (I : List Char), (∀ c ∈ I, isDigitB c = true) → I ≠ [] →
      in64 (natOfDigits I : ℤ) → ¬ in64 ((natOfDigits I : ℤ) * 100) →
      parseCents (String.mk I) = .error (.moneyValueOverflow (String.mk I))) ∧
    EvalMoneyExpression ("1e2") = .error (.nonNumericLiteral ("1e2")) ∧
    EvalMoneyExpression ("pi") = .error (.nonNumericLiteral ("pi")) ∧
    parseCents ("7.5") = .ok 750 := by
  have z63 : (2 : ℤ) ^ 63 = 9223372036854775808 := by norm_num
  refine ⟨?_, ?_, ?_, parseCents_too_many, ?_, ?_, ?_, ?_⟩
  · intro t st ht hnum
    obtain ⟨ty, tx, v, ar⟩ := t
    simp only at ht hnum
    subst ht
    simp [moneyStep, hnum]
  · intro I F hI hF hIne hFlen hsum
    rw [parseCents_dot I F hI hF hIne hFlen]
    have h1 : in64 (natOfDigits I : ℤ) := by
      simp only [in64, int64Min, int64Max, z63] at hsum ⊢
      omega
    have h2 : in64 ((natOfDigits I : ℤ) * 100) := by
      simp only [in64, int64Min, int64Max, z63] at hsum ⊢
      omega
    rw [if_pos h1, if_pos h2, if_pos hsum]
  · intro I hI hIne hmul
    rw [parseCents_nodot I hI hIne]
    have h1 : in64 (natOfDigits I : ℤ) := by
      simp only [in64, int64Min, int64Max, z63] at hmul ⊢
      omega
    rw [if_pos h1, if_pos hmul]
  · intro I hI hIne h1 h2
    rw [parseCents_nodot I hI hIne, if_pos h1, if_neg h2]
  · decide!
  · decide!
  · decide!

/-- Witness for C7: the literal `"7.5"` parses to 750 cents. -/
theorem C7_money_literals_witness :
    parseCents (String.mk (['7'] ++ '.' :: ['5'])) =
      .ok ((natOfDigits ['7'] : ℤ) * 100 +
        (natOfDigits ['5'] * 10 ^ (2 - (['5'] : List Char).length) : ℕ)) :=
  C7_money_literals.2.1 ['7'] ['5'] (by decide) (by decide) (by decide)
    (by decide) (by decide)

/-- Counterexample to C9 as stated: lexing `"PI"` emits a Number token
whose `Text` is the folded text `"pi"`, which differs from the original
(pre-case-folding) source text `"PI"`. -/
theorem C9_counterexample :
    tokenize ("PI") = .ok [{ Typ := .TNumber, Text := "pi", Value := piF64 }] ∧
    ("pi" : String) ≠ "PI" := by
  refine ⟨by decide!, by decide⟩

/-- Rounding half away from zero fixes the integers. -/
theorem rhaz_intCast (z : ℤ) : roundHalfAwayFromZero (z : ℚ) = z := by
  unfold roundHalfAwayFromZero
  by_cases hz : (0 : ℚ) ≤ (z : ℚ)
  · rw [if_pos hz, Int.floor_int_add]
    norm_num
  · rw [if_neg hz]
    have : (z : ℚ) - 1 / 2 = -(1 / 2) + z := by ring
    rw [this, Int.ceil_add_int]
    norm_num

/-- Rounding an integer plus a fraction in (0,1): up when the fraction
is at least one half, down otherwise. -/
theorem rhaz_int_add_pos (q : ℤ) (hq : 0 ≤ q) (t : ℚ) (h0 : 0 < t) (h1 : t < 1) :
    roundHalfAwayFromZero ((q : ℚ) + t) = q + (if 1 / 2 ≤ t then 1 else 0) := by
  unfold roundHalfAwayFromZero
  have hx : (0 : ℚ) ≤ (q : ℚ) + t := by
    have : (0 : ℚ) ≤ (q : ℚ) := by exact_mod_cast hq
    linarith
  rw [if_pos hx]
  have harr : (q : ℚ) + t + 1 / 2 = (q : ℚ) + (t + 1 / 2) := by ring
  rw [harr, Int.floor_int_add]
  congr 1
  by_cases ht : 1 / 2 ≤ t
  · rw [if_pos ht, Int.floor_eq_iff]
    constructor
    · push_cast
      linarith
    · push_cast
      linarith
  · rw [if_neg ht, Int.floor_eq_iff]
    constructor
    · push_cast
      linarith
    · push_cast
      linarith

/-- Rounding an integer plus a fraction in (-1,0): down (away from zero)
when the fraction is at most minus one half. -/
theorem rhaz_int_add_neg (q : ℤ) (hq : q ≤ 0) (t : ℚ) (h0 : -1 < t) (h1 : t < 0) :
    roundHalfAwayFromZero ((q : ℚ) + t) = q - (if t ≤ -(1 / 2) then 1 else 0) := by
  unfold roundHalfAwayFromZero
  have hx : ¬ (0 : ℚ) ≤ (q : ℚ) + t := by
    have : (q : ℚ) ≤ 0 := by exact_mod_cast hq
    push_neg
    linarith
  rw [if_neg hx]
  have harr : (q : ℚ) + t - 1 / 2 = (t - 1 / 2) + (q : ℚ) := by ring
  rw [harr, Int.ceil_add_int]
  have : q - (if t ≤ -(1 / 2) then (1:ℤ) else 0) = (if t ≤ -(1 / 2) then (-1:ℤ) else 0) + q := by
    by_cases ht : t ≤ -(1 / 2)
    · rw [if_pos ht, if_pos ht]; ring
    · rw [if_neg ht, if_neg ht]; ring
  rw [this]
  congr 1
  by_cases ht : t ≤ -(1 / 2)
  · rw [if_pos ht, Int.ceil_eq_iff]
    constructor
    · push_cast
      linarith
    · push_cast
      linarith
  · rw [if_neg ht, Int.ceil_eq_iff]
    push_neg at ht
    constructor
    · push_cast
      linarith
    · push_cast
      linarith

/-- Truncating remainder is odd in the dividend. -/
theorem neg_tmod_left (a b : ℤ) : (-a).tmod b = -(a.tmod b) := by
  rw [Int.tmod_def, Int.tmod_def, Int.neg_tdiv]
  ring

/-- The truncating remainder is smaller than the divisor in magnitude. -/
theorem natAbs_tmod_lt (n d : ℤ) (h0 : d ≠ 0) : (n.tmod d).natAbs < d.natAbs := by
  have key : ∀ (m e : ℤ), 0 < e → (m.tmod e).natAbs < e.natAbs := by
    intro m e he
    rcases le_or_lt 0 m with hm | hm
    · have h1 := Int.tmod_nonneg e hm
      have h2 := Int.tmod_lt_of_pos m he
      omega
    · have hneg : m.tmod e = -((-m).tmod e) := by
        rw [neg_tmod_left]
        ring
      have h1 := Int.tmod_nonneg e (by omega : (0:ℤ) ≤ -m)
      have h2 := Int.tmod_lt_of_pos (-m) he
      omega
  rcases lt_or_gt_of_ne h0 with hdneg | hdpos
  · have h := key n (-d) (by omega)
    rw [Int.tmod_neg] at h
    omega
  · exact key n d hdpos

/-- A nonpositive dividend has nonpositive truncating remainder. -/
theorem tmod_nonpos_left (n d : ℤ) (h : n ≤ 0) : n.tmod d ≤ 0 := by
  have hneg : n.tmod d = -((-n).tmod d) := by
    rw [neg_tmod_left]
    ring
  have := Int.tmod_nonneg d (by omega : (0:ℤ) ≤ -n)
  omega

/-- `divRound` computes the rounded-half-away-from-zero quotient for
every in-range dividend and nonzero in-range divisor except
`(MinInt64, -1)`, where Go's wrapped division applies. -/
theorem divRound_eq (n d : ℤ) (hn : in64 n) (hd : in64 d) (h0 : d ≠ 0)
    (hex : ¬ (n = int64Min ∧ d = -1)) :
    divRound n d = .ok (roundHalfAwayFromZero ((n : ℚ) / (d : ℚ))) := by
  have z63 : (2 : ℤ) ^ 63 = 9223372036854775808 := by norm_num
  simp only [in64, int64Min, int64Max, z63] at hn hd
  have hdQ : (d : ℚ) ≠ 0 := Int.cast_ne_zero.2 h0
  have hqr : d * (n.tdiv d) + n.tmod d = n := Int.tdiv_add_tmod n d
  have hrlt : (n.tmod d).natAbs < d.natAbs := natAbs_tmod_lt n d h0
  have hqabs : (n.tdiv d).natAbs = n.natAbs / d.natAbs := Int.natAbs_tdiv n d
  have hnabs : n.natAbs ≤ 9223372036854775808 := by omega
  have hq_range : -9223372036854775808 ≤ n.tdiv d ∧ n.tdiv d ≤ 9223372036854775807 := by
    rcases (show d.natAbs = 1 ∨ 2 ≤ d.natAbs by omega) with h1 | h2
    · have hd1 : d = 1 ∨ d = -1 := by omega
      rcases hd1 with h | h
      · subst h
        rw [Int.tdiv_one]
        omega
      · subst h
        have hneg1 : n.tdiv (-1) = -n := by
          rw [show ((-1 : ℤ)) = -(1 : ℤ) from rfl, Int.tdiv_neg, Int.tdiv_one]
        rw [hneg1]
        have hnmin : n ≠ -9223372036854775808 := by
          intro hcon
          exact hex ⟨by rw [hcon]; norm_num [int64Min], rfl⟩
        omega
    · have hmono : n.natAbs / d.natAbs ≤ n.natAbs / 2 :=
        Nat.div_le_div_left h2 (by norm_num)
      omega
  obtain ⟨hqlo, hqhi⟩ := hq_range
  unfold divRound
  rw [if_neg h0]
  dsimp only
  by_cases hr : n.tmod d = 0
  · rw [if_pos hr]
    rw [hr, add_zero] at hqr
    have h1 : ((d * n.tdiv d : ℤ) : ℚ) = (n : ℚ) := by exact_mod_cast hqr
    have hx : (n : ℚ) / d = ((n.tdiv d : ℤ) : ℚ) := by
      rw [← h1]
      push_cast
      rw [mul_comm, mul_div_assoc, div_self hdQ, mul_one]
    rw [hx, rhaz_intCast]
    congr 1
    exact wrap64_eq (by omega) (by omega)
  · rw [if_neg hr]
    have hd2 : 2 ≤ d.natAbs := by omega
    have hq62 : (n.tdiv d).natAbs ≤ 4611686018427387904 := by
      have hmono : n.natAbs / d.natAbs ≤ n.natAbs / 2 :=
        Nat.div_le_div_left hd2 (by norm_num)
      omega
    have hn0 : n ≠ 0 := fun hcon => hr (by rw [hcon]; exact Int.zero_tmod d)
    have hinner : wrap64 (n.tdiv d) = n.tdiv d := wrap64_eq (by omega) (by omega)
    rw [hinner]
    have h1 : ((d * n.tdiv d + n.tmod d : ℤ) : ℚ) = (n : ℚ) := by exact_mod_cast hqr
    have hx : (n : ℚ) / d = ((n.tdiv d : ℤ) : ℚ) + ((n.tmod d : ℤ) : ℚ) / d := by
      rw [← h1]
      push_cast
      field_simp
      ring
    rcases lt_trichotomy d 0 with hdneg | hdz | hdpos
    · -- d < 0
      have hdQneg : (d : ℚ) < 0 := by exact_mod_cast hdneg
      rcases lt_trichotomy n 0 with hnneg | hnz | hnpos
      · -- n < 0, d < 0
        have hrneg : n.tmod d < 0 :=
          lt_of_le_of_ne (tmod_nonpos_left n d (le_of_lt hnneg)) hr
        have hrd : d < n.tmod d := by omega
        have hqpos : 0 ≤ n.tdiv d := by
          have h2 : (-n).tdiv (-d) = n.tdiv d := Int.neg_tdiv_neg n d
          have h3 : 0 ≤ (-n).tdiv (-d) := Int.tdiv_nonneg (by omega) (by omega)
          omega
        have ht0 : (0:ℚ) < (n.tmod d : ℚ)/d :=
          div_pos_of_neg_of_neg (by exact_mod_cast hrneg) hdQneg
        have ht1 : (n.tmod d : ℚ)/d < 1 := by
          rw [div_lt_iff_of_neg hdQneg]
          have h2 : (d : ℚ) < (n.tmod d : ℚ) := by exact_mod_cast hrd
          linarith
        rw [hx, rhaz_int_add_pos _ hqpos _ ht0 ht1]
        have hcond : ((1:ℚ)/2 ≤ (n.tmod d : ℚ)/d) ↔ (d.natAbs ≤ 2 * (n.tmod d).natAbs) := by
          constructor
          · intro h
            rw [le_div_iff_of_neg hdQneg] at h
            have h3 : 2 * n.tmod d ≤ d := by
              have h4 : 2 * (n.tmod d : ℚ) ≤ (d : ℚ) := by linarith
              exact_mod_cast h4
            omega
          · intro h
            have h3 : 2 * n.tmod d ≤ d := by omega
            have h4 : 2 * (n.tmod d : ℚ) ≤ (d : ℚ) := by exact_mod_cast h3
            rw [le_div_iff_of_neg hdQneg]
            linarith
        by_cases hc : d.natAbs ≤ 2 * (n.tmod d).natAbs
        · rw [if_pos hc, if_pos (hcond.2 hc),
            if_pos (decide_eq_decide.mpr (iff_of_false (by omega) (by omega)))]
          congr 1
          exact wrap64_eq (by omega) (by omega)
        · rw [if_neg hc, if_neg (fun h => hc (hcond.1 h)), add_zero]
      · exact absurd hnz hn0
      · -- n > 0, d < 0
        have hrpos : 0 < n.tmod d :=
          lt_of_le_of_ne (Int.tmod_nonneg d (le_of_lt hnpos)) (Ne.symm hr)
        have hrd : n.tmod d < -d := by omega
        have hqneg : n.tdiv d ≤ 0 := Int.tdiv_nonpos (le_of_lt hnpos) (le_of_lt hdneg)
        have ht0 : (n.tmod d : ℚ)/d < 0 :=
          div_neg_of_pos_of_neg (by exact_mod_cast hrpos) hdQneg
        have ht1 : -1 < (n.tmod d : ℚ)/d := by
          rw [lt_div_iff_of_neg hdQneg]
          have h2 : (n.tmod d : ℚ) < ((-d : ℤ) : ℚ) := by exact_mod_cast hrd
          push_cast at h2 ⊢
          linarith
        rw [hx, rhaz_int_add_neg _ hqneg _ ht1 ht0]
        have hcond : ((n.tmod d : ℚ)/d ≤ -(1/2)) ↔ (d.natAbs ≤ 2 * (n.tmod d).natAbs) := by
          constructor
          · intro h
            rw [div_le_iff_of_neg hdQneg] at h
            have h3 : -d ≤ 2 * n.tmod d := by
              have h4 : -(d : ℚ) ≤ 2 * (n.tmod d : ℚ) := by linarith
              exact_mod_cast h4
            omega
          · intro h
            have h3 : -d ≤ 2 * n.tmod d := by omega
            have h4 : -(d : ℚ) ≤ 2 * (n.tmod d : ℚ) := by exact_mod_cast h3
            rw [div_le_iff_of_neg hdQneg]
            linarith
        by_cases hc : d.natAbs ≤ 2 * (n.tmod d).natAbs
        · rw [if_pos hc, if_pos (hcond.2 hc),
            if_neg (fun h => absurd ((decide_eq_decide.mp h).1 hnpos) (by omega))]
          congr 1
          exact wrap64_eq (by omega) (by omega)
        · rw [if_neg hc, if_neg (fun h => hc (hcond.1 h)), sub_zero]
    · exact absurd hdz h0
    · have hdQpos : (0:ℚ) < (d:ℚ) := by exact_mod_cast hdpos
      rcases lt_trichotomy n 0 with hnneg | hnz | hnpos
      · -- n < 0, d > 0
        have hrneg : n.tmod d < 0 :=
          lt_of_le_of_ne (tmod_nonpos_left n d (le_of_lt hnneg)) hr
        have hrd : -d < n.tmod d := by omega
        have hqneg : n.tdiv d ≤ 0 := by
          have hnt : (-n).tdiv d = -(n.tdiv d) := Int.neg_tdiv n d
          have h3 : 0 ≤ (-n).tdiv d := Int.tdiv_nonneg (by omega) (le_of_lt hdpos)
          omega
        have ht0 : ((n.tmod d : ℚ)) / d < 0 :=
          div_neg_of_neg_of_pos (by exact_mod_cast hrneg) hdQpos
        have ht1 : -1 < ((n.tmod d : ℚ)) / d := by
          rw [lt_div_iff hdQpos]
          have h2 : ((-d : ℤ) : ℚ) < (n.tmod d : ℚ) := by exact_mod_cast hrd
          push_cast at h2 ⊢
          linarith
        rw [hx, rhaz_int_add_neg _ hqneg _ ht1 ht0]
        have hcond : (((n.tmod d : ℚ))/d ≤ -(1/2)) ↔ (d.natAbs ≤ 2 * (n.tmod d).natAbs) := by
          constructor
          · intro h
            rw [div_le_iff hdQpos] at h
            have h3 : 2 * n.tmod d ≤ -d := by
              have h4 : 2 * (n.tmod d : ℚ) ≤ -(d : ℚ) := by linarith
              exact_mod_cast h4
            omega
          · intro h
            have h3 : 2 * n.tmod d ≤ -d := by omega
            have h4 : 2 * (n.tmod d : ℚ) ≤ -(d : ℚ) := by exact_mod_cast h3
            rw [div_le_iff hdQpos]
            linarith
        by_cases hc : d.natAbs ≤ 2 * (n.tmod d).natAbs
        · rw [if_pos hc, if_pos (hcond.2 hc),
            if_neg (fun h => absurd ((decide_eq_decide.mp h).2 hdpos) (by omega))]
          congr 1
          exact wrap64_eq (by omega) (by omega)
        · rw [if_neg hc, if_neg (fun h => hc (hcond.1 h)), sub_zero]
      · exact absurd hnz hn0
      · -- n > 0, d > 0
        have hrpos : 0 < n.tmod d :=
          lt_of_le_of_ne (Int.tmod_nonneg d (le_of_lt hnpos)) (Ne.symm hr)
        have hrd : n.tmod d < d := Int.tmod_lt_of_pos n hdpos
        have hqpos : 0 ≤ n.tdiv d := Int.tdiv_nonneg (le_of_lt hnpos) (le_of_lt hdpos)
        have ht0 : (0:ℚ) < (n.tmod d : ℚ) / d := div_pos (by exact_mod_cast hrpos) hdQpos
        have ht1 : ((n.tmod d : ℚ)) / d < 1 := (div_lt_one hdQpos).2 (by exact_mod_cast hrd)
        rw [hx, rhaz_int_add_pos _ hqpos _ ht0 ht1]
        have hcond : ((1:ℚ)/2 ≤ (n.tmod d : ℚ)/d) ↔ (d.natAbs ≤ 2 * (n.tmod d).natAbs) := by
          constructor
          · intro h
            have h2 : (d:ℚ) ≤ 2 * (n.tmod d:ℚ) := by
              have := (div_le_div_iff (by norm_num) hdQpos).1 h
              linarith
            have h3 : (d:ℤ) ≤ 2 * n.tmod d := by exact_mod_cast h2
            omega
          · intro h
            have h3 : (d:ℤ) ≤ 2 * n.tmod d := by omega
            have h2 : (d:ℚ) ≤ 2 * (n.tmod d:ℚ) := by exact_mod_cast h3
            rw [div_le_div_iff (by norm_num) hdQpos]
            linarith
        by_cases hc : d.natAbs ≤ 2 * (n.tmod d).natAbs
        · rw [if_pos hc, if_pos (hcond.2 hc),
            if_pos (decide_eq_decide.mpr (iff_of_true hnpos hdpos))]
          congr 1
          exact wrap64_eq (by omega) (by omega)
        · rw [if_neg hc, if_neg (fun h => hc (hcond.1 h))]
          rw [add_zero]

/-- C1 (amended): for every int64 dividend `n` and nonzero int64 divisor
`d` other than the pair `(MinInt64, -1)` — where Go's two's-complement
division wraps and `divRound` returns `MinInt64` instead of the
unrepresentable 2^63 — `divRound n d` is the rational quotient `n / d`
rounded half away from zero: the truncated quotient adjusted by one away
from zero exactly when twice the remainder's magnitude reaches the
divisor's magnitude, for negative and positive operands alike; and
`"1200%10"` = 12000 cents, `"10/3"` = 333 cents, `"7.5%2"` = 15 cents. -/
theorem C1_divRound_rounds_half_away :
    (∀ n d : ℤ, in64 n → in64 d → d ≠ 0 → ¬ (n = int64Min ∧ d = -1) →
      divRound n d = .ok (roundHalfAwayFromZero ((n : ℚ) / (d : ℚ)))) ∧
    EvalMoneyExpression ("1200%10") = .ok 12000 ∧
    EvalMoneyExpression ("10/3") = .ok 333 ∧
    EvalMoneyExpression ("7.5%2") = .ok 15 := by
  refine ⟨divRound_eq, by decide!, by decide!, by decide!⟩

/-- Witness for C1: 7/2 cents rounds to 4 (3.5 away from zero). -/
theorem C1_divRound_rounds_half_away_witness :
    divRound 7 2 = .ok (roundHalfAwayFromZero (((7 : ℤ) : ℚ) / ((2 : ℤ) : ℚ))) :=
  C1_divRound_rounds_half_away.1 7 2 (by decide) (by decide) (by decide) (by decide)

/-- Counterexample to C1 as stated ("for every dividend n and every
nonzero divisor d"): at `n = MinInt64`, `d = -1` the Go quotient wraps
(per the Go specification `x / -1 = x` for the most negative `x`), so
`divRound` returns `MinInt64` while the quotient rounded half away from
zero is 2^63. -/
theorem C1_counterexample :
    (-1 : ℤ) ≠ 0 ∧
    divRound int64Min (-1) = .ok int64Min ∧
    roundHalfAwayFromZero ((int64Min : ℚ) / ((-1 : ℤ) : ℚ)) = 2 ^ 63 ∧
    divRound int64Min (-1) ≠
      .ok (roundHalfAwayFromZero ((int64Min : ℚ) / ((-1 : ℤ) : ℚ))) := by
  refine ⟨by decide, by decide!, by decide!, by decide!⟩

end Gocal
